import Mathlib

/-!
Verification of the recipe-extraction pipeline of this repository
(`supabase/functions/extract-recipe/index.ts` and `src/services/recipeExtractor.ts`).

Strings are modelled as `List Char`.  Each JavaScript
`String.prototype.replace(regex, repl)` call with a global flag is embedded as a
left-to-right scan (`scanL`) driven by a matcher that reports the length of the
(leftmost, at-this-position) regex match, mirroring the exact backtracking
behaviour of the concrete pattern involved.  Network calls (page fetch, AI
backends) are modelled as explicit parameters carrying the external response.
-/

namespace Recipes

set_option linter.constructorNameAsVariable false

/-- ASCII lower-casing of a character, as used by the case-insensitive (`i`)
regex flags in the source (all patterns involved are ASCII). -/
def lowc (c : Char) : Char :=
  if 'A' ≤ c ∧ c ≤ 'Z' then Char.ofNat (c.toNat + 32) else c

/-- The character class `[\t\f\v\r ]` of the horizontal-whitespace collapse in
`cleanHtmlContent`. -/
def isHorizWs (c : Char) : Bool :=
  c = '\t' || c = '\x0c' || c = '\x0b' || c = '\r' || c = ' '

/-- JavaScript's `\s` class (also the set trimmed by `String.prototype.trim`). -/
def isJsWs (c : Char) : Bool :=
  c = ' ' || c = '\t' || c = '\n' || c = '\r' || c = '\x0b' || c = '\x0c' ||
  c = ' ' || c = ' ' || (' ' ≤ c && c ≤ ' ') ||
  c = ' ' || c = ' ' || c = ' ' || c = ' ' ||
  c = '　' || c = '﻿'

/-- Length of the maximal run of characters satisfying `p` at the head. -/
def countWhile (p : Char → Bool) : List Char → Nat
  | [] => 0
  | c :: cs => if p c then countWhile p cs + 1 else 0

/-- Does `cs` start with the literal `lit` (exact case)? -/
def litAt : List Char → List Char → Bool
  | [], _ => true
  | _ :: _, [] => false
  | l :: ls, c :: cs => c = l && litAt ls cs

/-- Does `cs` start with the literal `lit`, compared case-insensitively? -/
def litAtCI : List Char → List Char → Bool
  | [], _ => true
  | _ :: _, [] => false
  | l :: ls, c :: cs => lowc c = lowc l && litAtCI ls cs

/-- Offset one past the end of the first (case-insensitive) occurrence of
`close` in `cs`; `none` when absent.  Models the lazy `[\s\S]*?` up to a
closing literal. -/
def findCIEnd (close : List Char) : List Char → Option Nat
  | [] => if litAtCI close [] then some close.length else none
  | c :: cs =>
    if litAtCI close (c :: cs) then some close.length
    else (findCIEnd close cs).map (· + 1)

/-- Offset one past the end of the first exact occurrence of `close` in `cs`. -/
def findEnd (close : List Char) : List Char → Option Nat
  | [] => if litAt close [] then some close.length else none
  | c :: cs =>
    if litAt close (c :: cs) then some close.length
    else (findEnd close cs).map (· + 1)

/-- Fuel-indexed global regex replace: at each position, `m` reports the length
of the match starting there (all patterns embedded here match at least one
character); on a match, `repl` is emitted and scanning resumes after the match,
mirroring `String.prototype.replace` with the `g` flag. -/
def scanGo (m : List Char → Option Nat) (repl : List Char) :
    Nat → List Char → List Char
  | _, [] => []
  | 0, cs => cs
  | Nat.succ f, c :: cs =>
    match m (c :: cs) with
    | some (Nat.succ n) => repl ++ scanGo m repl f (cs.drop n)
    | _ => c :: scanGo m repl f cs

/-- Global regex replace over a whole string. -/
def scanL (m : List Char → Option Nat) (repl : List Char) (cs : List Char) :
    List Char :=
  scanGo m repl cs.length cs

/-- Matcher for `<script[^>]*>[\s\S]*?<\/script>` (flags `gi`). -/
def matchScript (cs : List Char) : Option Nat :=
  match cs with
  | '<' :: rest =>
    if litAtCI "script".toList rest then
      let r2 := rest.drop 6
      let k := countWhile (fun c => !(c == '>')) r2
      match r2.drop k with
      | '>' :: r3 =>
        match findCIEnd "</script>".toList r3 with
        | some m => some (1 + 6 + k + 1 + m)
        | none => none
      | _ => none
    else none
  | _ => none

/-- Matcher for `<style[^>]*>[\s\S]*?<\/style>` (flags `gi`). -/
def matchStyle (cs : List Char) : Option Nat :=
  match cs with
  | '<' :: rest =>
    if litAtCI "style".toList rest then
      let r2 := rest.drop 5
      let k := countWhile (fun c => !(c == '>')) r2
      match r2.drop k with
      | '>' :: r3 =>
        match findCIEnd "</style>".toList r3 with
        | some m => some (1 + 5 + k + 1 + m)
        | none => none
      | _ => none
    else none
  | _ => none

/-- Matcher for HTML comments `<!--[\s\S]*?-->`. -/
def matchComment (cs : List Char) : Option Nat :=
  match cs with
  | '<' :: '!' :: '-' :: '-' :: r =>
    match findEnd "-->".toList r with
    | some m => some (4 + m)
    | none => none
  | _ => none

/-- Matcher for `<NM[^>]*>` (case-insensitive), where `NM` is a fixed tag-name
literal; used for `<li`, `</li`, `<br`. -/
def matchOpenTag (nm : List Char) (cs : List Char) : Option Nat :=
  match cs with
  | '<' :: rest =>
    if litAtCI nm rest then
      let r2 := rest.drop nm.length
      let k := countWhile (fun c => !(c == '>')) r2
      match r2.drop k with
      | '>' :: _ => some (1 + nm.length + k + 1)
      | _ => none
    else none
  | _ => none

/-- The block-level tag names of
`<\/?(h[1-6]|p|div|section|article|main|ul|ol|td|th)[^>]*>`, with `h[1-6]`
expanded; no name is a prefix of another, so first-match alternation is
order-independent here. -/
def blockTagNames : List (List Char) :=
  ["h1", "h2", "h3", "h4", "h5", "h6", "p", "div", "section", "article",
   "main", "ul", "ol", "td", "th"].map String.toList

/-- Matcher for the block-level boundary pattern
`<\/?(h[1-6]|p|div|section|article|main|ul|ol|td|th)[^>]*>` (flags `gi`). -/
def matchBlockTag (cs : List Char) : Option Nat :=
  match cs with
  | '<' :: rest =>
    let sl := match rest with | '/' :: _ => 1 | _ => 0
    let r1 := match rest with | '/' :: r => r | _ => rest
    match blockTagNames.find? (fun nm => litAtCI nm r1) with
    | some nm =>
      let r2 := r1.drop nm.length
      let k := countWhile (fun c => !(c == '>')) r2
      match r2.drop k with
      | '>' :: _ => some (1 + sl + nm.length + k + 1)
      | _ => none
    | none => none
  | _ => none

/-- Matcher for the remaining-tag pattern `<[^>]+>`. -/
def matchAnyTag (cs : List Char) : Option Nat :=
  match cs with
  | '<' :: rest =>
    let k := countWhile (fun c => !(c == '>')) rest
    if k = 0 then none
    else
      match rest.drop k with
      | '>' :: _ => some (1 + k + 1)
      | _ => none
  | _ => none

/-- Matcher for a literal (exact case), as used by the entity decodes. -/
def matchLitE (lit : List Char) (cs : List Char) : Option Nat :=
  if litAt lit cs then some lit.length else none

/-- Matcher for `[\t\f\v\r ]+`. -/
def mHoriz (cs : List Char) : Option Nat :=
  let k := countWhile isHorizWs cs
  if 0 < k then some k else none

/-- Matcher for `\n{3,}`. -/
def mNl3 (cs : List Char) : Option Nat :=
  let k := countWhile (fun c => c == '\n') cs
  if 3 ≤ k then some k else none

/-- Matcher for `\s*\n\s*`: by greediness/backtracking this consumes exactly
the maximal whitespace run at this position whenever that run contains a
newline, and fails otherwise. -/
def mNlRun (cs : List Char) : Option Nat :=
  let k := countWhile isJsWs cs
  if 0 < k && (cs.take k).contains '\n' then some k else none

/-- `String.prototype.trim`. -/
def trimJs (cs : List Char) : List Char :=
  ((cs.dropWhile isJsWs).reverse.dropWhile isJsWs).reverse

/-- `cleanHtmlContent` from `supabase/functions/extract-recipe/index.ts`,
stage by stage in source order, over `List Char`. -/
def cleanHtmlList (cs : List Char) : List Char :=
  let c1 := scanL matchScript [] cs
  let c2 := scanL matchStyle [] c1
  let c3 := scanL matchComment [] c2
  let c4 := scanL (matchOpenTag "li".toList) ['\n', '-', ' '] c3
  let c5 := scanL (matchOpenTag "/li".toList) ['\n'] c4
  let c6 := scanL matchBlockTag ['\n'] c5
  let c7 := scanL (matchOpenTag "br".toList) ['\n'] c6
  let c8 := scanL matchAnyTag [' '] c7
  let e1 := scanL (matchLitE "&amp;".toList) ['&'] c8
  let e2 := scanL (matchLitE "&lt;".toList) ['<'] e1
  let e3 := scanL (matchLitE "&gt;".toList) ['>'] e2
  let e4 := scanL (matchLitE "&quot;".toList) ['"'] e3
  let e5 := scanL (matchLitE "&#39;".toList) ['\''] e4
  let e6 := scanL (matchLitE "&nbsp;".toList) [' '] e5
  let w1 := scanL mHoriz [' '] e6
  let w2 := scanL mNl3 ['\n', '\n'] w1
  let w3 := scanL mNlRun ['\n'] w2
  trimJs w3

/-- `cleanHtmlContent` over `String`. -/
def cleanHtmlContent (s : String) : String :=
  (cleanHtmlList s.toList).asString

/-- The tag-removal and entity-decoding stages of `cleanHtmlContent`
(everything before the whitespace normalization). -/
def preWsStages (cs : List Char) : List Char :=
  let c1 := scanL matchScript [] cs
  let c2 := scanL matchStyle [] c1
  let c3 := scanL matchComment [] c2
  let c4 := scanL (matchOpenTag "li".toList) ['\n', '-', ' '] c3
  let c5 := scanL (matchOpenTag "/li".toList) ['\n'] c4
  let c6 := scanL matchBlockTag ['\n'] c5
  let c7 := scanL (matchOpenTag "br".toList) ['\n'] c6
  let c8 := scanL matchAnyTag [' '] c7
  let e1 := scanL (matchLitE "&amp;".toList) ['&'] c8
  let e2 := scanL (matchLitE "&lt;".toList) ['<'] e1
  let e3 := scanL (matchLitE "&gt;".toList) ['>'] e2
  let e4 := scanL (matchLitE "&quot;".toList) ['"'] e3
  let e5 := scanL (matchLitE "&#39;".toList) ['\''] e4
  scanL (matchLitE "&nbsp;".toList) [' '] e5

/-- Characters of `[\t\f\v\r ]` other than the plain space. -/
def isTfvr (c : Char) : Bool :=
  c = '\t' || c = '\x0c' || c = '\x0b' || c = '\r'

/-- No two adjacent plain spaces. -/
def RSp (a b : Char) : Prop := ¬(a = ' ' ∧ b = ' ')

/-- No whitespace character adjacent to a newline. -/
def RNl (a b : Char) : Prop :=
  ¬(isJsWs a = true ∧ b = '\n') ∧ ¬(a = '\n' ∧ isJsWs b = true)

/-! ### The deterministic ingredient structurer
(`parseIngredientHeuristic`, `buildStructuredIngredients`) -/

def isDigitCh (c : Char) : Bool := '0' ≤ c && c ≤ '9'

/-- The Unicode fraction glyph class `[¼½¾⅓⅔⅛⅜⅝⅞]`. -/
def unicodeFractions : List Char := ['¼', '½', '¾', '⅓', '⅔', '⅛', '⅜', '⅝', '⅞']

/-- Length of a `\d+\/\d+` match at the head. -/
def fracAt (cs : List Char) : Option Nat :=
  if 0 < countWhile isDigitCh cs then
    match cs.drop (countWhile isDigitCh cs) with
    | '/' :: r =>
      if 0 < countWhile isDigitCh r then
        some (countWhile isDigitCh cs + 1 + countWhile isDigitCh r)
      else none
    | _ => none
  else none

/-- Length of a mixed-number `\d+\s+\d+\/\d+` match at the head. -/
def mixedAt (cs : List Char) : Option Nat :=
  if 0 < countWhile isJsWs (cs.drop (countWhile isDigitCh cs)) then
    (fracAt ((cs.drop (countWhile isDigitCh cs)).drop
        (countWhile isJsWs (cs.drop (countWhile isDigitCh cs))))).map
      (fun m =>
        countWhile isDigitCh cs +
          countWhile isJsWs (cs.drop (countWhile isDigitCh cs)) + m)
  else none

/-- Length of a range `\d+-\d+\/\d+` match at the head. -/
def rangeAt (cs : List Char) : Option Nat :=
  match cs.drop (countWhile isDigitCh cs) with
  | '-' :: r => (fracAt r).map (fun m => countWhile isDigitCh cs + 1 + m)
  | _ => none

/-- Length of a decimal `\d+\.\d+` match at the head. -/
def decAt (cs : List Char) : Option Nat :=
  match cs.drop (countWhile isDigitCh cs) with
  | '.' :: r =>
    if 0 < countWhile isDigitCh r then
      some (countWhile isDigitCh cs + 1 + countWhile isDigitCh r)
    else none
  | _ => none

/-- Length of the leading quantity-token match of
`/^(?:\d+\s+\d+\/\d+|\d+-\d+\/\d+|\d+\/\d+|\d+\.\d+|\d+|[¼½¾⅓⅔⅛⅜⅝⅞])/`,
alternatives tried in the source's priority order (mixed number, range,
vulgar fraction, decimal, integer, single fraction glyph). -/
def matchAmount (cs : List Char) : Option Nat :=
  if 0 < countWhile isDigitCh cs then
    mixedAt cs <|> rangeAt cs <|> fracAt cs <|> decAt cs <|>
      some (countWhile isDigitCh cs)
  else
    match cs with
    | c :: _ => if c ∈ unicodeFractions then some 1 else none
    | [] => none

/-- The alternatives of `UNIT_REGEX` in source order; the `.` of entries like
`tsp.` is a regex wildcard (any character except a line terminator), since the
source builds the pattern by joining the raw strings with `|`. -/
def unitAlternatives : List (List Char) :=
  ["teaspoon", "teaspoons", "tsp", "tsp.",
   "tablespoon", "tablespoons", "tbsp", "tbsp.",
   "cup", "cups",
   "ounce", "ounces", "oz", "oz.",
   "pound", "pounds", "lb", "lb.", "lbs", "lbs.",
   "gram", "grams", "g", "g.",
   "kilogram", "kilograms", "kg", "kg.",
   "milliliter", "milliliters", "ml", "ml.",
   "liter", "liters", "l", "l.",
   "pinch", "pinches", "dash", "dashes",
   "clove", "cloves", "slice", "slices", "package", "packages", "can",
   "cans"].map String.toList

/-- Case-insensitive literal match where `.` in the literal is the regex
wildcard (any character except a line terminator). -/
def litAtDotCI : List Char → List Char → Bool
  | [], _ => true
  | _ :: _, [] => false
  | l :: ls, c :: cs =>
    (if l = '.' then
      !(c = '\n' || c = '\r' || c = ' ' || c = ' ')
    else decide (lowc c = lowc l)) && litAtDotCI ls cs

def isWordChar (c : Char) : Bool :=
  ('a' ≤ c && c ≤ 'z') || ('A' ≤ c && c ≤ 'Z') || ('0' ≤ c && c ≤ '9') ||
    c = '_'

def isWordOpt : Option Char → Bool
  | none => false
  | some c => isWordChar c

/-- The `(?=\b)` lookahead after a match of length `n` at the head of `cs`:
a word boundary sits between the last consumed character and the next one. -/
def boundaryAfter (n : Nat) (cs : List Char) : Bool :=
  isWordOpt ((cs.take n).getLast?) != isWordOpt ((cs.drop n).head?)

/-- Length of the leading unit-token match of
`^(UNIT_REGEX)(?=\b)` (case-insensitive), alternatives tried in source
order with backtracking into the alternation when the boundary fails. -/
def matchUnit (cs : List Char) : Option Nat :=
  go unitAlternatives
where go : List (List Char) → Option Nat
  | [] => none
  | alt :: alts =>
    if litAtDotCI alt cs && boundaryAfter alt.length cs then some alt.length
    else go alts

/-- The leading-bullet strip `replace(/^[-•\s]+/, '')` (first match only). -/
def bulletStrip (cs : List Char) : List Char :=
  cs.drop (countWhile (fun c => c = '-' || c = '•' || isJsWs c) cs)

/-- The leading-`of` strip `replace(/^of\s+/i, '')` (first match only). -/
def ofStrip (cs : List Char) : List Char :=
  match cs with
  | c1 :: c2 :: r =>
    if lowc c1 = 'o' ∧ lowc c2 = 'f' then
      let w := countWhile isJsWs r
      if 0 < w then r.drop w else cs
    else cs
  | _ => cs

structure StructuredIngredient where
  name : String
  amount : String
  unit : String
deriving DecidableEq, Repr

/-- `parseIngredientHeuristic` from
`supabase/functions/extract-recipe/index.ts`. -/
def parseIngredientHeuristic (line : String) : StructuredIngredient :=
  let s0 := trimJs line.toList
  let s1 := trimJs (bulletStrip s0)
  let amount := match matchAmount s1 with
    | some n => trimJs (s1.take n)
    | none => []
  let s2 := match matchAmount s1 with
    | some n => trimJs (s1.drop n)
    | none => s1
  let unitTok := match matchUnit s2 with
    | some n => trimJs (s2.take n)
    | none => []
  let s3 := match matchUnit s2 with
    | some n => trimJs (s2.drop n)
    | none => s2
  let name := trimJs (ofStrip s3)
  ⟨name.asString, amount.asString, unitTok.asString⟩

/-- `buildStructuredIngredients` from
`supabase/functions/extract-recipe/index.ts`. -/
def buildStructuredIngredients (ingredients : List String) :
    List StructuredIngredient :=
  ingredients.map parseIngredientHeuristic

/-! ### JSON values, the JSON-LD normalizers and the request handler

`Json` models a value produced by `JSON.parse`.  `Json.null` also stands
for JavaScript's `undefined` (e.g. a missing object property): the two are
indistinguishable to the truthiness tests the handler performs, except for
direct property access on it, which the handler model guards explicitly. -/

inductive Json where
  | null
  | bool (b : Bool)
  | num (n : Int)
  | str (s : String)
  | arr (xs : List Json)
  | obj (fields : List (String × Json))

/-- JavaScript truthiness of a parsed JSON value. -/
def truthy : Json → Bool
  | Json.null => false
  | Json.bool b => b
  | Json.num n => decide (n ≠ 0)
  | Json.str s => decide (s ≠ "")
  | Json.arr _ => true
  | Json.obj _ => true

/-- `typeof x === 'object'` for a parsed JSON value (true for objects,
arrays and `null`). -/
def isObjectType : Json → Bool
  | Json.null => true
  | Json.arr _ => true
  | Json.obj _ => true
  | _ => false

/-- Property access `x[k]`: the last binding wins (as after `JSON.parse`);
a missing property, or access on a non-object, yields `Json.null`
(standing for `undefined`). -/
def getField (j : Json) (k : String) : Json :=
  match j with
  | Json.obj fs =>
    match fs.reverse.find? (fun p => p.1 == k) with
    | some p => p.2
    | none => Json.null
  | _ => Json.null

/-- JS `String.prototype.trim` (trims the `\s` class). -/
def jsTrim (s : String) : String := (trimJs s.toList).asString

/-- Split on `/\r?\n/` (used by `normalizeIngredients` on string input). -/
def splitRN : List Char → List Char → List (List Char)
  | acc, [] => [acc.reverse]
  | acc, '\r' :: '\n' :: rest => acc.reverse :: splitRN [] rest
  | acc, '\n' :: rest => acc.reverse :: splitRN [] rest
  | acc, c :: rest => splitRN (c :: acc) rest

/-- `normalizeIngredients` from
`supabase/functions/extract-recipe/index.ts`. -/
def normalizeIngredients (raw : Json) : List String :=
  if truthy raw = false then []
  else match raw with
    | Json.arr xs =>
      (xs.map (fun x => match x with
        | Json.str s => jsTrim s
        | _ => "")).filter (fun x => 0 < x.length)
    | Json.str s =>
      ((splitRN [] s.toList).map
        (fun x => (trimJs (bulletStrip x)).asString)).filter
        (fun x => 0 < x.length)
    | _ => []

def isLineTerm (c : Char) : Bool :=
  c = '\n' || c = '\r' || c = ' ' || c = ' '

/-- Strip a leading `/^Step\s*\d+[:.)-]?\s*/i` once. -/
def stepStrip (cs : List Char) : List Char :=
  if litAtCI "Step".toList cs then
    let r1 := (cs.drop 4).drop (countWhile isJsWs (cs.drop 4))
    if 0 < countWhile isDigitCh r1 then
      let r2 := r1.drop (countWhile isDigitCh r1)
      let r3 := match r2 with
        | c :: rest =>
          if c = ':' ∨ c = '.' ∨ c = ')' ∨ c = '-' then rest else r2
        | [] => r2
      r3.drop (countWhile isJsWs r3)
    else cs
  else cs

/-- One `itemListElement` entry:
`typeof el === 'string' ? el : el?.text || el?.name || ''`. -/
def elValue (el : Json) : Json :=
  match el with
  | Json.str s => Json.str s
  | _ =>
    if truthy (getField el "text") then getField el "text"
    else if truthy (getField el "name") then getField el "name"
    else Json.str ""

/-- Join with single spaces (JS `Array.prototype.join(' ')`). -/
def joinSp : List String → String
  | [] => ""
  | [x] => x
  | x :: rest => x ++ " " ++ joinSp rest

/-- One step of a `recipeInstructions` array (string, HowToStep object
with `text`/`name`, or a HowToSection with `itemListElement`). -/
def stepValue (step : Json) : String :=
  match step with
  | Json.str s => jsTrim s
  | _ =>
    if truthy step && isObjectType step then
      match getField step "text" with
      | Json.str t => jsTrim t
      | _ =>
        match getField step "name" with
        | Json.str t => jsTrim t
        | _ =>
          match getField step "itemListElement" with
          | Json.arr els =>
            joinSp (((els.map elValue).map (fun j =>
              match j with
              | Json.str s => jsTrim s
              | _ => "")).filter (fun x => 0 < x.length))
          | _ => ""
    else ""

/-- Does the lookahead `(?=\s+[A-Z]|$)` after a `.` hold here? -/
def dotLookahead (rest : List Char) : Bool :=
  match rest with
  | [] => true
  | _ =>
    0 < countWhile isJsWs rest &&
      match (rest.drop (countWhile isJsWs rest)).head? with
      | some u => 'A' ≤ u && u ≤ 'Z'
      | none => false

/-- Split on `/\r?\n+|\.(?=\s+[A-Z]|$)/` (used by `normalizeInstructions`
on string input).  The fuel is an upper bound on the input length. -/
def splitInstr : Nat → List Char → List Char → List (List Char)
  | _, acc, [] => [acc.reverse]
  | 0, acc, _ => [acc.reverse]
  | f + 1, acc, c :: rest =>
    if c = '\r' && rest.head? == some '\n' then
      acc.reverse ::
        splitInstr f [] (rest.drop (countWhile (fun x => x = '\n') rest))
    else if c = '\n' then
      acc.reverse ::
        splitInstr f [] (rest.drop (countWhile (fun x => x = '\n') rest))
    else if c = '.' && dotLookahead rest then
      acc.reverse :: splitInstr f [] rest
    else splitInstr f (c :: acc) rest

/-- `normalizeInstructions` from
`supabase/functions/extract-recipe/index.ts`. -/
def normalizeInstructions (raw : Json) : List String :=
  if truthy raw = false then []
  else match raw with
    | Json.arr xs =>
      ((xs.map stepValue).map
        (fun x => (trimJs (stepStrip x.toList)).asString)).filter
        (fun x => 0 < x.length)
    | Json.str s =>
      ((splitInstr s.toList.length [] s.toList).map
        (fun x => (trimJs x).asString)).filter (fun x => 0 < x.length)
    | _ => []

/-- The candidate nodes drawn from one parsed JSON-LD block: the elements
of a top-level array, or `@graph` elements (when an array) followed by the
object itself. -/
def candidatesOf : Json → List Json
  | Json.arr xs => xs
  | Json.obj fs =>
    (match getField (Json.obj fs) "@graph" with
     | Json.arr g => g
     | _ => []) ++ [Json.obj fs]
  | _ => []

/-- `@type === 'Recipe'`, or an `@type` array containing `'Recipe'`. -/
def isRecipeNode (node : Json) : Bool :=
  match getField node "@type" with
  | Json.arr ts =>
    ts.any (fun t => match t with
      | Json.str s => s == "Recipe"
      | _ => false)
  | Json.str s => s == "Recipe"
  | _ => false

def hasRecipeFields (node : Json) : Bool :=
  truthy (getField node "recipeIngredient") ||
    truthy (getField node "recipeInstructions")

/-- The inner candidate loop of `extractFromJsonLd`: first node that is a
truthy object, looks like a recipe, and normalizes to a non-empty
ingredient or instruction list. -/
def scanNodes : List Json → Option (List String × List String)
  | [] => none
  | node :: rest =>
    if truthy node && isObjectType node then
      if isRecipeNode node || hasRecipeFields node then
        let ing := normalizeIngredients (getField node "recipeIngredient")
        let ins := normalizeInstructions (getField node "recipeInstructions")
        if ing ≠ [] ∨ ins ≠ [] then some (ing, ins) else scanNodes rest
      else scanNodes rest
    else scanNodes rest

/-- `extractFromJsonLd` from
`supabase/functions/extract-recipe/index.ts`, over the `JSON.parse`
results of the harvested `<script type="application/ld+json">` blocks
(`none` marks a block whose parse threw, which the source skips). -/
def extractFromJsonLd : List (Option Json) → Option (List String × List String)
  | [] => none
  | none :: rest => extractFromJsonLd rest
  | some j :: rest =>
    match scanNodes (candidatesOf j) with
    | some r => some r
    | none => extractFromJsonLd rest

/-- One refined ingredient from the AI refinement output:
`{name, amount, unit}` with non-string fields replaced by `''`. -/
def jsonToIngredient (x : Json) : StructuredIngredient :=
  ⟨(match getField x "name" with | Json.str s => jsTrim s | _ => ""),
   (match getField x "amount" with | Json.str s => jsTrim s | _ => ""),
   (match getField x "unit" with | Json.str s => jsTrim s | _ => "")⟩

/-- `refineIngredientsWithAI` from
`supabase/functions/extract-recipe/index.ts`.  `net` is the parsed JSON
content of the model response; `none` stands for any failed or non-JSON
response (every such path returns `null`). -/
def refineResult (key : String) (ingredients : List String)
    (net : Option Json) : Option (List StructuredIngredient) :=
  if key = "" then none
  else if ingredients = [] then some []
  else match net with
    | none => none
    | some j =>
      match j with
      | Json.arr xs => some (xs.map jsonToIngredient)
      | _ => none

/-- `aiStructured && aiStructured.length > 0 ? aiStructured :
buildStructuredIngredients(flat)`. -/
def chooseStructured (flat : List String)
    (ai : Option (List StructuredIngredient)) : List StructuredIngredient :=
  match ai with
  | some xs => if 0 < xs.length then xs else buildStructuredIngredients flat
  | none => buildStructuredIngredients flat

/-- Outcome of the main AI extraction call (after the model cascade):
the HTTP call failed with a status, the response body failed to parse as
JSON, or it parsed to a value. -/
inductive AiOutcome where
  | httpFail (status : Nat)
  | parseFail
  | parsed (recipeData : Json)

/-- A string array field `recipeData.ingredients || []`: the handler
trusts the AI JSON to be a string array (a TypeScript cast); non-string
entries are modeled as empty strings. -/
def jsStrArr (j : Json) : List String :=
  match j with
  | Json.arr xs => xs.map (fun x => match x with
      | Json.str s => s
      | _ => "")
  | _ => []

def jsOr (a b : Json) : Json := if truthy a then a else b

def isNull : Json → Bool
  | Json.null => true
  | _ => false

/-- The JSON body and status of one handler response. -/
structure ServeResponse where
  success : Bool
  status : Nat
  ingredients : List String
  instructions : List String
  structuredIngredients : List StructuredIngredient
  error : Option Json

/-- The request handler of `supabase/functions/extract-recipe/index.ts`
from the point where the page HTML has been fetched successfully:
`blocks` are the parse results of its JSON-LD script blocks, `key` the
`OPENAI_API_KEY` value (`""` when unset), `ai` the outcome of the main
extraction call and `net` the parsed refinement response.  A thrown
error is caught and becomes a `success:false` status-500 response with
the error's message. -/
def serveAfterFetch (blocks : List (Option Json)) (key : String)
    (ai : AiOutcome) (net : Option Json) : ServeResponse :=
  match extractFromJsonLd blocks with
  | some (ing, ins) =>
    ⟨true, 200, ing, ins,
      chooseStructured ing (refineResult key ing net), none⟩
  | none =>
    if key = "" then
      ⟨false, 500, [], [], [],
        some (Json.str "OpenAI API key not configured")⟩
    else match ai with
      | AiOutcome.httpFail st =>
        ⟨false, 500, [], [], [],
          some (Json.str ("AI API error: " ++ toString st))⟩
      | AiOutcome.parseFail =>
        ⟨false, 500, [], [], [],
          some (Json.str "Failed to parse recipe data from AI response")⟩
      | AiOutcome.parsed recipeData =>
        if isNull recipeData then
          ⟨false, 500, [], [], [],
            some (Json.str
              "Cannot read properties of null (reading 'error')")⟩
        else if truthy (getField recipeData "error") then
          ⟨false, 400, [], [], [], some (getField recipeData "error")⟩
        else
          let flat := jsStrArr
            (jsOr (getField recipeData "ingredients") (Json.arr []))
          ⟨true, 200, flat,
            jsStrArr (jsOr (getField recipeData "instructions")
              (Json.arr [])),
            chooseStructured flat (refineResult key flat net), none⟩

/-! ### The client-side heuristic NL parser
(`intelligentParse` in `src/services/recipeExtractor.ts`) -/

def upc (c : Char) : Char :=
  if 'a' ≤ c ∧ c ≤ 'z' then Char.ofNat (c.toNat - 32) else c

/-- `n, n-1, ..., 0`: the candidate lengths of a greedy `X*` item in
backtracking preference order. -/
def descRange (n : Nat) : List Nat := (List.range (n + 1)).reverse

/-- `n, n-1, ..., 1`: the candidate lengths of a greedy `X+` item in
backtracking preference order. -/
def descRangeFrom1 (n : Nat) : List Nat :=
  (List.range n).reverse.map (fun k => k + 1)

/-- JS `String.prototype.includes`. -/
def hasSubstr (pat : List Char) : List Char → Bool
  | [] => decide (pat = [])
  | c :: rest => litAt pat (c :: rest) || hasSubstr pat rest

/-- `String.prototype.split('\n')` (exact separator, not a regex). -/
def splitNlEx : List Char → List Char → List (List Char)
  | acc, [] => [acc.reverse]
  | acc, '\n' :: r => acc.reverse :: splitNlEx [] r
  | acc, c :: r => splitNlEx (c :: acc) r

/-- `/^\d+\./.test(line)`. -/
def startsNumDot (l : List Char) : Bool :=
  0 < countWhile isDigitCh l &&
    (l.drop (countWhile isDigitCh l)).head? == some '.'

/-- `line.replace(/^\d+\.\s*/, '')`. -/
def stripNumDot (l : List Char) : List Char :=
  if startsNumDot l then
    ((l.drop (countWhile isDigitCh l)).drop 1).drop
      (countWhile isJsWs ((l.drop (countWhile isDigitCh l)).drop 1))
  else l

def instructionKeywords : List (List Char) :=
  ["heat", "cook", "bake", "fry", "boil", "simmer", "mix", "stir", "add",
   "combine", "whisk", "blend", "chop", "dice", "slice", "melt", "pour",
   "season", "taste", "serve", "garnish", "preheat", "remove", "set aside",
   "drain", "rinse", "cover", "uncover", "reduce", "increase",
   "transfer"].map String.toList

def keywordIn (line : List Char) : Bool :=
  instructionKeywords.any (fun k => hasSubstr k line)

/-- `/^[A-Z]/.test(line)`. -/
def isCapitalized (l : List Char) : Bool :=
  match l.head? with
  | some c => 'A' ≤ c && c ≤ 'Z'
  | none => false

/-- The ingredient regex's unit alternation
`cups?|cup|tablespoons?|...|jars`, expanded (`Xs?` becomes `Xs` then
`X`) in the regex engine's preference order. -/
def ingUnitAlts : List (List Char) :=
  ["cups", "cup", "cup", "tablespoons", "tablespoon", "tbsp",
   "teaspoons", "teaspoon", "tsp", "ounces", "ounce", "oz",
   "pounds", "pound", "lbs", "lb", "lb", "grams", "gram", "g",
   "kilograms", "kilogram", "kg", "milliliters", "milliliter", "ml",
   "liters", "liter", "l", "cloves", "clove", "pieces", "piece",
   "slices", "slice", "large", "medium", "small", "whole", "can",
   "cans", "package", "packages", "jar", "jars"].map String.toList

/-- The character class `[\/\.\d]`. -/
def amtCls (c : Char) : Bool := c = '/' || c = '.' || isDigitCh c

/-- Consumed-length candidates of the optional bullet
`(?:\*|-|\•|\d+\.?)?` in preference order. -/
def bulletOptions (r : List Char) : List Nat :=
  (match r with | '*' :: _ => [1] | _ => []) ++
  (match r with | '-' :: _ => [1] | _ => []) ++
  (match r with | '•' :: _ => [1] | _ => []) ++
  ((descRangeFrom1 (countWhile isDigitCh r)).flatMap (fun k =>
    (if (r.drop k).head? == some '.' then [k + 1] else []) ++ [k])) ++
  [0]

/-- Consumed-length candidates of the amount group
`(\d+(?:[\/\.\d]*)?)` in preference order. -/
def amtOptions (r : List Char) : List Nat :=
  (descRangeFrom1 (countWhile isDigitCh r)).flatMap (fun k =>
    (descRange (countWhile amtCls (r.drop k))).map (fun m => k + m))

/-- Consumed-length candidates of `(?:of\s+)?` in preference order. -/
def ofOptions (r : List Char) : List Nat :=
  (if litAtCI "of".toList r then
    (descRangeFrom1 (countWhile isJsWs (r.drop 2))).map (fun k => 2 + k)
  else []) ++ [0]

/-- The lookahead `(?=\n|$|,|\()`. -/
def lookAheadOk (r : List Char) : Bool :=
  match r with
  | [] => true
  | c :: _ => c = '\n' || c = ',' || c = '('

def lazyNameGo (n : Nat) : List Char → Option Nat
  | [] => some n
  | c :: rest =>
    if lookAheadOk (c :: rest) then some n
    else if isLineTerm c then none
    else lazyNameGo (n + 1) rest

/-- Length of the lazy name group `(.+?)` up to the lookahead. -/
def lazyName : List Char → Option Nat
  | [] => none
  | c :: rest => if isLineTerm c then none else lazyNameGo 1 rest

/-- The single possible match of the ingredient regex on one
newline-free line (the `(?:^|\n)` anchor pins it to the start), as
(amount group, unit group, raw name group); backtracking is modeled by
trying each item's candidate lengths in the engine's preference order. -/
def ingLineMatch (l : List Char) : Option (List Char × List Char × List Char) :=
  (descRange (countWhile isJsWs l)).findSome? (fun k1 =>
    let r1 := l.drop k1
    (bulletOptions r1).findSome? (fun bn =>
      let r2 := r1.drop bn
      (descRange (countWhile isJsWs r2)).findSome? (fun k2 =>
        let r3 := r2.drop k2
        (amtOptions r3).findSome? (fun an =>
          let r4 := r3.drop an
          (descRange (countWhile isJsWs r4)).findSome? (fun k3 =>
            let r5 := r4.drop k3
            ingUnitAlts.findSome? (fun u =>
              if litAtCI u r5 then
                let r6 := r5.drop u.length
                (descRangeFrom1 (countWhile isJsWs r6)).findSome? (fun k4 =>
                  let r7 := r6.drop k4
                  (ofOptions r7).findSome? (fun onn =>
                    (lazyName (r7.drop onn)).map (fun nn =>
                      (r3.take an, r5.take u.length,
                        (r7.drop onn).take nn))))
              else none))))))

/-- `replace(/[^\w\s-]/g, '')`. -/
def cleanNameChars (cs : List Char) : List Char :=
  cs.filter (fun c => isWordChar c || isJsWs c || c = '-')

/-- `name.charAt(0).toUpperCase() + name.slice(1)`. -/
def capitalizeFirst : List Char → List Char
  | [] => []
  | c :: r => upc c :: r

def lowerName (i : StructuredIngredient) : String :=
  (i.name.toList.map lowc).asString

/-- The loop state of `intelligentParse`. -/
structure IPState where
  inInstr : Bool
  inIngr : Bool
  instructions : List String
  ingredients : List StructuredIngredient

/-- One iteration of `intelligentParse`'s line loop. -/
def ipStep (st : IPState) (orig : List Char) : IPState :=
  let line := orig.map lowc
  if hasSubstr "instruction".toList line || hasSubstr "method".toList line ||
      hasSubstr "direction".toList line || hasSubstr "steps".toList line then
    ⟨true, false, st.instructions, st.ingredients⟩
  else if hasSubstr "ingredient".toList line ||
      hasSubstr "you will need".toList line ||
      hasSubstr "shopping list".toList line then
    ⟨false, true, st.instructions, st.ingredients⟩
  else
    let st1 :=
      if st.inInstr && decide (10 < orig.length) then
        if startsNumDot orig || keywordIn line then
          ⟨st.inInstr, st.inIngr,
            st.instructions ++ [(stripNumDot orig).asString],
            st.ingredients⟩
        else st
      else if !st.inIngr && decide (20 < orig.length) &&
          decide (orig.length < 200) then
        if keywordIn line && (orig.any isDigitCh || isCapitalized orig) then
          ⟨st.inInstr, st.inIngr, st.instructions ++ [orig.asString],
            st.ingredients⟩
        else st
      else st
    if st1.inIngr ||
        (!st1.inInstr && decide (st1.ingredients.length < 20)) then
      match ingLineMatch orig with
      | some (amt, unitTok, nameRaw) =>
        let name := trimJs (cleanNameChars (trimJs nameRaw))
        if decide (1 < name.length) && decide (name.length < 50) &&
            !hasSubstr "step".toList (name.map lowc) then
          ⟨st1.inInstr, st1.inIngr, st1.instructions,
            st1.ingredients ++
              [⟨(capitalizeFirst name).asString, (trimJs amt).asString,
                (trimJs unitTok).asString⟩]⟩
        else st1
      | none => st1
    else st1

/-- `[...new Set(instructions)]`: exact-match dedup keeping first
occurrences (`seen` starts empty). -/
def dedupKeepFirst (seen : List String) : List String → List String
  | [] => []
  | x :: rest =>
    if x ∈ seen then dedupKeepFirst seen rest
    else x :: dedupKeepFirst (x :: seen) rest

/-- `filter((ing, i, self) => i === self.findIndex(o =>
o.name.toLowerCase() === ing.name.toLowerCase()))`: keep the first
ingredient for each lowercase name. -/
def dedupByNameCI (seen : List String) :
    List StructuredIngredient → List StructuredIngredient
  | [] => []
  | x :: rest =>
    if lowerName x ∈ seen then dedupByNameCI seen rest
    else x :: dedupByNameCI (lowerName x :: seen) rest

def uniqueInstructions (xs : List String) : List String :=
  ((dedupKeepFirst [] xs).filter
    (fun i => 10 < i.length && i.length < 300)).take 15

def uniqueIngredients (xs : List StructuredIngredient) :
    List StructuredIngredient :=
  (dedupByNameCI [] xs).take 20

structure ParsedRecipe where
  instructions : List String
  ingredients : List StructuredIngredient

/-- `intelligentParse` from `src/services/recipeExtractor.ts`. -/
def intelligentParse (content : String) : ParsedRecipe :=
  let lines := ((splitNlEx [] content.toList).map trimJs).filter
    (fun l => 0 < l.length)
  let st := lines.foldl ipStep ⟨false, false, [], []⟩
  ⟨uniqueInstructions st.instructions, uniqueIngredients st.ingredients⟩

example : cleanHtmlContent "&amp;amp;" = "&amp;" := by decide
example : cleanHtmlContent "&amp;" = "&" := by decide
example : cleanHtmlContent "<nav>menu</nav>" = "menu" := by decide
example :
    cleanHtmlContent "<script>var x=1;</script>ok<nav>Navigation menu</nav>" =
      "ok Navigation menu" := by decide
example : cleanHtmlContent "<p>a</p><p>b</p>" = "a\nb" := by decide
example : cleanHtmlContent "<ul><li>x</li><li>y</li></ul>" = "- x\n- y" := by
  decide

/-! ### Generic facts about the replace scanner -/

theorem scanGo_nil (m : List Char → Option Nat) (r : List Char) (f : Nat) :
    scanGo m r f [] = [] := by
  cases f <;> rfl

theorem scanGo_succ_cons (m : List Char → Option Nat) (r : List Char) (f : Nat)
    (c : Char) (cs : List Char) :
    scanGo m r (f + 1) (c :: cs) =
      match m (c :: cs) with
      | some (Nat.succ n) => r ++ scanGo m r f (cs.drop n)
      | _ => c :: scanGo m r f cs := rfl

theorem scanGo_congr (m : List Char → Option Nat) (r : List Char) :
    ∀ (f g : Nat) (x : List Char), x.length ≤ f → x.length ≤ g →
      scanGo m r f x = scanGo m r g x := by
  intro f
  induction f with
  | zero =>
    intro g x hf _
    obtain rfl : x = [] := List.eq_nil_of_length_eq_zero (Nat.le_zero.mp hf)
    rw [scanGo_nil, scanGo_nil]
  | succ f ih =>
    intro g x hf hg
    match x with
    | [] => rw [scanGo_nil, scanGo_nil]
    | c :: cs =>
      match g, hg with
      | g + 1, hg =>
        rw [scanGo_succ_cons, scanGo_succ_cons]
        have hcs : cs.length ≤ f := by simpa using hf
        have hcs' : cs.length ≤ g := by simpa using hg
        cases h : m (c :: cs) with
        | none => simp only [h]; rw [ih g cs hcs hcs']
        | some k =>
          cases k with
          | zero => simp only [h]; rw [ih g cs hcs hcs']
          | succ n =>
            simp only [h]
            rw [ih g (cs.drop n) (le_trans (by simp) hcs)
              (le_trans (by simp) hcs')]

theorem scanL_nil (m : List Char → Option Nat) (r : List Char) :
    scanL m r [] = [] := rfl

theorem scanL_fire {m : List Char → Option Nat} {c : Char} {cs : List Char}
    {n : Nat} (r : List Char) (h : m (c :: cs) = some (n + 1)) :
    scanL m r (c :: cs) = r ++ scanL m r (cs.drop n) := by
  show scanGo m r (cs.length + 1) (c :: cs) = _
  rw [scanGo_succ_cons, h]
  simp only []
  rw [scanGo_congr m r cs.length (cs.drop n).length (cs.drop n) (by simp)
    le_rfl]
  rfl

theorem scanL_skip {m : List Char → Option Nat} {c : Char} {cs : List Char}
    (r : List Char) (h : m (c :: cs) = none) :
    scanL m r (c :: cs) = c :: scanL m r cs := by
  show scanGo m r (cs.length + 1) (c :: cs) = _
  rw [scanGo_succ_cons, h]
  rfl

theorem mem_scanL {m : List Char → Option Nat} {r : List Char} :
    ∀ x, ∀ a ∈ scanL m r x, a ∈ x ∨ a ∈ r := by
  have key : ∀ (N : Nat) (x : List Char), x.length ≤ N →
      ∀ a ∈ scanL m r x, a ∈ x ∨ a ∈ r := by
    intro N
    induction N with
    | zero =>
      intro x hx
      obtain rfl : x = [] := List.eq_nil_of_length_eq_zero (Nat.le_zero.mp hx)
      simp [scanL_nil]
    | succ N ih =>
      intro x hx a ha
      match x with
      | [] => simp [scanL_nil] at ha
      | c :: cs =>
        have hcs : cs.length ≤ N := by simpa using hx
        cases h : m (c :: cs) with
        | none =>
          rw [scanL_skip r h] at ha
          rcases List.mem_cons.mp ha with rfl | ha
          · exact Or.inl (by simp)
          · rcases ih cs hcs a ha with h' | h'
            · exact Or.inl (by simp [h'])
            · exact Or.inr h'
        | some k =>
          cases k with
          | zero =>
            have hstep : scanL m r (c :: cs) = c :: scanL m r cs := by
              show scanGo m r (cs.length + 1) (c :: cs) = _
              rw [scanGo_succ_cons, h]
              rfl
            rw [hstep] at ha
            rcases List.mem_cons.mp ha with rfl | ha
            · exact Or.inl (by simp)
            · rcases ih cs hcs a ha with h' | h'
              · exact Or.inl (by simp [h'])
              · exact Or.inr h'
          | succ n =>
            rw [scanL_fire r h] at ha
            rcases List.mem_append.mp ha with ha | ha
            · exact Or.inr ha
            · rcases ih (cs.drop n) (le_trans (by simp) hcs) a ha with h' | h'
              · exact Or.inl
                  (List.mem_cons_of_mem c (List.mem_of_mem_drop h'))
              · exact Or.inr h'
  exact fun x => key x.length x le_rfl

/-- If a matcher can only fire on a position whose first character satisfies
`P`, the scan passes over a `P`-free block unchanged. -/
theorem scanL_append_left (m : List Char → Option Nat) (r : List Char)
    (P : Char → Prop) (hm : ∀ c cs n, m (c :: cs) = some n → P c) :
    ∀ (pre rest : List Char), (∀ c ∈ pre, ¬ P c) →
      scanL m r (pre ++ rest) = pre ++ scanL m r rest := by
  intro pre
  induction pre with
  | nil => intro rest _; simp
  | cons c pre ih =>
    intro rest hp
    have hc : ¬ P c := hp c (by simp)
    have hnone : m (c :: (pre ++ rest)) = none := by
      cases h : m (c :: (pre ++ rest)) with
      | none => rfl
      | some n => exact absurd (hm _ _ _ h) hc
    rw [List.cons_append, scanL_skip r hnone,
      ih rest (fun d hd => hp d (by simp [hd])), List.cons_append]

/-- A scan whose matcher needs a `P`-character leaves a `P`-free string
unchanged. -/
theorem scanL_id_of_free (m : List Char → Option Nat) (r : List Char)
    (P : Char → Prop) (hm : ∀ c cs n, m (c :: cs) = some n → P c)
    (x : List Char) (hp : ∀ c ∈ x, ¬ P c) : scanL m r x = x := by
  have h := scanL_append_left m r P hm x [] hp
  simpa [scanL_nil] using h

/-! ### Facts about `countWhile` and the whitespace matchers -/

theorem countWhile_cons_true {p : Char → Bool} {c : Char} (cs : List Char)
    (h : p c = true) : countWhile p (c :: cs) = countWhile p cs + 1 := by
  simp [countWhile, h]

theorem countWhile_cons_false {p : Char → Bool} {c : Char} (cs : List Char)
    (h : p c = false) : countWhile p (c :: cs) = 0 := by
  simp [countWhile, h]

theorem countWhile_eq_zero {p : Char → Bool} {c : Char} {cs : List Char}
    (h : countWhile p (c :: cs) = 0) : p c = false := by
  by_contra hb
  rw [countWhile_cons_true cs (by revert hb; cases p c <;> simp)] at h
  exact Nat.succ_ne_zero _ h

theorem head_drop_countWhile (p : Char → Bool) :
    ∀ (l : List Char) (d : Char),
      (l.drop (countWhile p l)).head? = some d → p d = false := by
  intro l
  induction l with
  | nil => intro d h; simp at h
  | cons c cs ih =>
    intro d h
    cases hc : p c with
    | true =>
      rw [countWhile_cons_true cs hc, List.drop_succ_cons] at h
      exact ih d h
    | false =>
      rw [countWhile_cons_false cs hc, List.drop_zero] at h
      simp at h
      rw [← h]
      exact hc

theorem mem_take_countWhile (p : Char → Bool) :
    ∀ (l : List Char) (c : Char), c ∈ l.take (countWhile p l) → p c = true := by
  intro l
  induction l with
  | nil => intro c h; simp at h
  | cons a cs ih =>
    intro c h
    cases ha : p a with
    | true =>
      rw [countWhile_cons_true cs ha, List.take_succ_cons] at h
      rcases List.mem_cons.mp h with rfl | h
      · exact ha
      · exact ih c h
    | false =>
      rw [countWhile_cons_false cs ha] at h
      simp at h

theorem mHoriz_none {cs : List Char} (h : mHoriz cs = none) :
    countWhile isHorizWs cs = 0 := by
  by_contra hb
  unfold mHoriz at h
  rw [if_pos (Nat.pos_of_ne_zero hb)] at h
  exact Option.noConfusion h

theorem mHoriz_some {cs : List Char} {k : Nat} (h : mHoriz cs = some k) :
    k = countWhile isHorizWs cs ∧ 0 < k := by
  unfold mHoriz at h
  by_cases hp : 0 < countWhile isHorizWs cs
  · rw [if_pos hp] at h
    cases h
    exact ⟨rfl, hp⟩
  · rw [if_neg hp] at h
    exact Option.noConfusion h

theorem mNl3_none {cs : List Char} (h : mNl3 cs = none) :
    countWhile (fun c => c == '\n') cs < 3 := by
  by_contra hb
  unfold mNl3 at h
  rw [if_pos (Nat.le_of_not_lt hb)] at h
  exact Option.noConfusion h

theorem mNl3_some {cs : List Char} {k : Nat} (h : mNl3 cs = some k) :
    k = countWhile (fun c => c == '\n') cs ∧ 3 ≤ k := by
  unfold mNl3 at h
  by_cases hp : 3 ≤ countWhile (fun c => c == '\n') cs
  · rw [if_pos hp] at h
    cases h
    exact ⟨rfl, hp⟩
  · rw [if_neg hp] at h
    exact Option.noConfusion h

theorem mNlRun_none {cs : List Char} (h : mNlRun cs = none) :
    countWhile isJsWs cs = 0 ∨
      ¬ '\n' ∈ cs.take (countWhile isJsWs cs) := by
  unfold mNlRun at h
  by_cases hp : (decide (0 < countWhile isJsWs cs) &&
      (cs.take (countWhile isJsWs cs)).contains '\n') = true
  · rw [if_pos hp] at h
    exact Option.noConfusion h
  · rw [Bool.and_eq_true, decide_eq_true_eq] at hp
    by_cases h1 : 0 < countWhile isJsWs cs
    · refine Or.inr fun hmem => hp ⟨h1, List.elem_iff.mpr hmem⟩
    · exact Or.inl (Nat.eq_zero_of_not_pos h1)

theorem mNlRun_some {cs : List Char} {k : Nat} (h : mNlRun cs = some k) :
    k = countWhile isJsWs cs ∧ 0 < k ∧
      '\n' ∈ cs.take (countWhile isJsWs cs) := by
  unfold mNlRun at h
  by_cases hp : (decide (0 < countWhile isJsWs cs) &&
      (cs.take (countWhile isJsWs cs)).contains '\n') = true
  · rw [if_pos hp] at h
    cases h
    rw [Bool.and_eq_true, decide_eq_true_eq] at hp
    exact ⟨rfl, hp.1, List.elem_iff.mp hp.2⟩
  · rw [if_neg hp] at h
    exact Option.noConfusion h

/-! ### Whitespace invariants of the normalization pipeline -/

theorem isHorizWs_of_tfvr {c : Char} (h : isTfvr c = true) :
    isHorizWs c = true := by
  have hd : ((c = '\t' ∨ c = '\x0c') ∨ c = '\x0b') ∨ c = '\r' := by
    simpa [isTfvr] using h
  rcases hd with ((rfl | rfl) | rfl) | rfl <;> decide

theorem isHorizWs_space : isHorizWs ' ' = true := by decide

theorem not_space_of_not_horiz {c : Char} (h : isHorizWs c = false) :
    c ≠ ' ' := by
  rintro rfl
  revert h
  decide

/-- After a run-consuming fire, the next character fails the run predicate. -/
theorem after_fire_head {p : Char → Bool} {c : Char} {cs : List Char} {n : Nat}
    (hcw : countWhile p (c :: cs) = n + 1) {d : Char}
    (hd : (cs.drop n).head? = some d) : p d = false := by
  have h := head_drop_countWhile p (c :: cs) d
  rw [hcw, List.drop_succ_cons] at h
  exact h hd

/-- The head of a scan result is either the replacement's head (a fire) or the
input's head (a skip). -/
theorem head_scanL_cases {m : List Char → Option Nat} {r : List Char}
    (hrne : r ≠ []) (cs : List Char) (y : Char)
    (h : (scanL m r cs).head? = some y) :
    (∃ k, m cs = some (k + 1) ∧ r.head? = some y) ∨ cs.head? = some y := by
  match cs with
  | [] => rw [scanL_nil] at h; exact absurd h (by simp)
  | c :: cs =>
    cases hm : m (c :: cs) with
    | none =>
      rw [scanL_skip r hm] at h
      simp at h
      exact Or.inr (by simp [h])
    | some k =>
      cases k with
      | zero =>
        have hstep : scanL m r (c :: cs) = c :: scanL m r cs := by
          show scanGo m r (cs.length + 1) (c :: cs) = _
          rw [scanGo_succ_cons, hm]
          rfl
        rw [hstep] at h
        simp at h
        exact Or.inr (by simp [h])
      | succ n =>
        rw [scanL_fire r hm] at h
        match r, hrne with
        | a :: t, _ =>
          rw [List.cons_append] at h
          simp at h
          refine Or.inl ⟨n, ?_, ?_⟩
          · rfl
          · simp [h]

theorem mHoriz_none_of_head {d : Char} (ds : List Char)
    (hd : isHorizWs d = false) : mHoriz (d :: ds) = none := by
  unfold mHoriz
  rw [countWhile_cons_false ds hd]
  rfl

theorem mNl3_none_of_head {d : Char} (ds : List Char)
    (hd : d ≠ '\n') : mNl3 (d :: ds) = none := by
  unfold mNl3
  rw [countWhile_cons_false ds (by simpa using hd)]
  rfl

theorem mNlRun_none_of_head {d : Char} (ds : List Char)
    (hd : isJsWs d = false) : mNlRun (d :: ds) = none := by
  unfold mNlRun
  rw [countWhile_cons_false ds hd]
  rfl

/-- The horizontal-whitespace collapse removes every tab, form feed, vertical
tab and carriage return. -/
theorem hc_no_tfvr :
    ∀ x, ∀ c ∈ scanL mHoriz [' '] x, isTfvr c = false := by
  have key : ∀ (N : Nat) (x : List Char), x.length ≤ N →
      ∀ c ∈ scanL mHoriz [' '] x, isTfvr c = false := by
    intro N
    induction N with
    | zero =>
      intro x hx
      obtain rfl : x = [] := List.eq_nil_of_length_eq_zero (Nat.le_zero.mp hx)
      simp [scanL_nil]
    | succ N ih =>
      intro x hx a ha
      match x with
      | [] => simp [scanL_nil] at ha
      | c :: cs =>
        have hcs : cs.length ≤ N := by simpa using hx
        cases h : mHoriz (c :: cs) with
        | none =>
          rw [scanL_skip _ h] at ha
          rcases List.mem_cons.mp ha with rfl | ha
          · have h0 := countWhile_eq_zero (mHoriz_none h)
            cases ht : isTfvr a with
            | false => rfl
            | true => rw [isHorizWs_of_tfvr ht] at h0; exact Bool.noConfusion h0
          · exact ih cs hcs a ha
        | some k =>
          obtain ⟨hk, hpos⟩ := mHoriz_some h
          obtain ⟨n, rfl⟩ := Nat.exists_eq_succ_of_ne_zero (Nat.pos_iff_ne_zero.mp hpos)
          rw [scanL_fire _ h] at ha
          rcases List.mem_append.mp ha with ha | ha
          · simp at ha
            rw [ha]
            rfl
          · exact ih (cs.drop n) (le_trans (by simp) hcs) a ha
  exact fun x => key x.length x le_rfl

/-- The horizontal-whitespace collapse never leaves two adjacent spaces. -/
theorem hc_chain_sp : ∀ x, List.Chain' RSp (scanL mHoriz [' '] x) := by
  have key : ∀ (N : Nat) (x : List Char), x.length ≤ N →
      List.Chain' RSp (scanL mHoriz [' '] x) := by
    intro N
    induction N with
    | zero =>
      intro x hx
      obtain rfl : x = [] := List.eq_nil_of_length_eq_zero (Nat.le_zero.mp hx)
      simp [scanL_nil]
    | succ N ih =>
      intro x hx
      match x with
      | [] => simp [scanL_nil]
      | c :: cs =>
        have hcs : cs.length ≤ N := by simpa using hx
        cases h : mHoriz (c :: cs) with
        | none =>
          rw [scanL_skip _ h]
          rw [List.chain'_cons']
          refine ⟨?_, ih cs hcs⟩
          intro y _
          have h0 := countWhile_eq_zero (mHoriz_none h)
          intro ⟨hc', _⟩
          rw [hc'] at h0
          rw [isHorizWs_space] at h0
          exact Bool.noConfusion h0
        | some k =>
          obtain ⟨hk, hpos⟩ := mHoriz_some h
          obtain ⟨n, rfl⟩ := Nat.exists_eq_succ_of_ne_zero (Nat.pos_iff_ne_zero.mp hpos)
          rw [scanL_fire _ h]
          show List.Chain' RSp (' ' :: scanL mHoriz [' '] (cs.drop n))
          rw [List.chain'_cons']
          refine ⟨?_, ih (cs.drop n) (le_trans (by simp) hcs)⟩
          intro y hy
          rcases head_scanL_cases (by simp) (cs.drop n) y hy with
            ⟨k', hk', _⟩ | hhead
          · -- the rest cannot fire: its head is not horizontal whitespace
            rcases hrest : cs.drop n with _ | ⟨d, ds⟩
            · rw [hrest] at hk'
              simp [mHoriz, countWhile] at hk'
            · rw [hrest] at hk'
              have hd : isHorizWs d = false :=
                after_fire_head hk.symm (by rw [hrest]; rfl)
              rw [mHoriz_none_of_head ds hd] at hk'
              exact Option.noConfusion hk'
          · -- the head after the consumed run is not horizontal whitespace
            have hd : isHorizWs y = false :=
              after_fire_head hk.symm hhead
            intro ⟨_, hy'⟩
            exact not_space_of_not_horiz hd hy'
  exact fun x => key x.length x le_rfl

theorem scanL_skip0 {m : List Char → Option Nat} {c : Char} {cs : List Char}
    (r : List Char) (h : m (c :: cs) = some 0) :
    scanL m r (c :: cs) = c :: scanL m r cs := by
  show scanGo m r (cs.length + 1) (c :: cs) = _
  rw [scanGo_succ_cons, h]
  rfl

theorem mem_of_head?_eq {α : Type} {l : List α} {a : α}
    (h : l.head? = some a) : a ∈ l := by
  cases l with
  | nil => simp at h
  | cons b t => simp at h; simp [h]

theorem mem_of_getLast?_eq {α : Type} {l : List α} {a : α}
    (h : l.getLast? = some a) : a ∈ l := by
  obtain ⟨hne, rfl⟩ := List.mem_getLast?_eq_getLast (Option.mem_def.mpr h)
  exact List.getLast_mem hne

/-- A scan whose replacement contains no space preserves the
no-two-adjacent-spaces invariant. -/
theorem scanL_preserves_RSp {m : List Char → Option Nat} {r : List Char}
    (hrne : r ≠ []) (hrsp : ∀ a ∈ r, a ≠ ' ') :
    ∀ x, List.Chain' RSp x → List.Chain' RSp (scanL m r x) := by
  have hrchain : List.Chain' RSp r :=
    (List.pairwise_of_forall_mem_list
      (fun a ha b _ => fun hab => hrsp a ha hab.1)).chain'
  have key : ∀ (N : Nat) (x : List Char), x.length ≤ N →
      List.Chain' RSp x → List.Chain' RSp (scanL m r x) := by
    intro N
    induction N with
    | zero =>
      intro x hx _
      obtain rfl : x = [] := List.eq_nil_of_length_eq_zero (Nat.le_zero.mp hx)
      simp [scanL_nil]
    | succ N ih =>
      intro x hx hch
      match x with
      | [] => simp [scanL_nil]
      | c :: cs =>
        have hcs : cs.length ≤ N := by simpa using hx
        have hpair := (List.chain'_cons'.mp hch).1
        have htail := (List.chain'_cons'.mp hch).2
        have hskip : List.Chain' RSp (c :: scanL m r cs) := by
          rw [List.chain'_cons']
          refine ⟨?_, ih cs hcs htail⟩
          intro y hy
          rcases head_scanL_cases hrne cs y hy with ⟨_, _, hry⟩ | hhead
          · exact fun hab => hrsp y (mem_of_head?_eq hry) hab.2
          · exact hpair y hhead
        cases hm : m (c :: cs) with
        | none => rw [scanL_skip r hm]; exact hskip
        | some k =>
          cases k with
          | zero => rw [scanL_skip0 r hm]; exact hskip
          | succ n =>
            rw [scanL_fire r hm]
            rw [List.chain'_append]
            refine ⟨hrchain, ih (cs.drop n) (le_trans (by simp) hcs) ?_, ?_⟩
            · have h := hch.drop (n + 1)
              rwa [List.drop_succ_cons] at h
            · intro a ha y _
              exact fun hab => hrsp a (mem_of_getLast?_eq ha) hab.1
  exact fun x => key x.length x le_rfl

theorem isJsWs_nl : isJsWs '\n' = true := by decide

/-- The `\s*\n\s*` collapse leaves no whitespace adjacent to a newline. -/
theorem nlc_chain_nl : ∀ x, List.Chain' RNl (scanL mNlRun ['\n'] x) := by
  have key : ∀ (N : Nat) (x : List Char), x.length ≤ N →
      List.Chain' RNl (scanL mNlRun ['\n'] x) := by
    intro N
    induction N with
    | zero =>
      intro x hx
      obtain rfl : x = [] := List.eq_nil_of_length_eq_zero (Nat.le_zero.mp hx)
      simp [scanL_nil]
    | succ N ih =>
      intro x hx
      match x with
      | [] => simp [scanL_nil]
      | c :: cs =>
        have hcs : cs.length ≤ N := by simpa using hx
        cases h : mNlRun (c :: cs) with
        | some k =>
          obtain ⟨hk, hpos, hmem⟩ := mNlRun_some h
          obtain ⟨n, rfl⟩ :=
            Nat.exists_eq_succ_of_ne_zero (Nat.pos_iff_ne_zero.mp hpos)
          rw [scanL_fire _ h]
          show List.Chain' RNl ('\n' :: scanL mNlRun ['\n'] (cs.drop n))
          rw [List.chain'_cons']
          refine ⟨?_, ih (cs.drop n) (le_trans (by simp) hcs)⟩
          intro y hy
          rcases head_scanL_cases (by simp) (cs.drop n) y hy with
            ⟨k', hk', _⟩ | hhead
          · rcases hrest : cs.drop n with _ | ⟨d, ds⟩
            · rw [hrest] at hk'
              simp [mNlRun, countWhile] at hk'
            · rw [hrest] at hk'
              have hd : isJsWs d = false :=
                after_fire_head hk.symm (by rw [hrest]; rfl)
              rw [mNlRun_none_of_head ds hd] at hk'
              exact Option.noConfusion hk'
          · have hd : isJsWs y = false := after_fire_head hk.symm hhead
            constructor
            · intro ⟨_, hy'⟩
              rw [hy'] at hd
              rw [isJsWs_nl] at hd
              exact Bool.noConfusion hd
            · intro ⟨_, hy'⟩
              rw [hy'] at hd
              exact Bool.noConfusion hd
        | none =>
          rw [scanL_skip _ h]
          rw [List.chain'_cons']
          refine ⟨?_, ih cs hcs⟩
          intro y hy
          by_cases hwc : isJsWs c = true
          · -- the run at `c` contains no newline
            have hrun : ¬ '\n' ∈ (c :: cs).take (countWhile isJsWs (c :: cs)) := by
              rcases mNlRun_none h with h0 | h0
              · rw [countWhile_cons_true cs hwc] at h0
                exact absurd h0 (Nat.succ_ne_zero _)
              · exact h0
            have hcw : countWhile isJsWs (c :: cs) = countWhile isJsWs cs + 1 :=
              countWhile_cons_true cs hwc
            have hcne : c ≠ '\n' := by
              intro hceq
              exact hrun (by rw [hcw, List.take_succ_cons, hceq]; simp)
            have hcs_no : ¬ '\n' ∈ cs.take (countWhile isJsWs cs) := by
              intro hin
              exact hrun (by rw [hcw, List.take_succ_cons]; simp [hin])
            rcases head_scanL_cases (by simp) cs y hy with
              ⟨k', hk', hry⟩ | hhead
            · obtain ⟨_, _, hmem'⟩ := mNlRun_some hk'
              exact absurd hmem' hcs_no
            · constructor
              · intro ⟨_, hy'⟩
                -- y is the head of cs and is a newline: contradiction
                rcases hcs' : cs with _ | ⟨d, ds⟩
                · rw [hcs'] at hhead; simp at hhead
                · rw [hcs'] at hhead
                  simp at hhead
                  apply hcs_no
                  rw [hcs']
                  have hd' : d = '\n' := by rw [hhead, hy']
                  rw [countWhile_cons_true ds (by rw [hd']; exact isJsWs_nl)]
                  rw [List.take_succ_cons]
                  simp [hd']
              · intro ⟨hc', _⟩
                exact hcne hc'
          · -- c is not whitespace at all: both conjuncts are immediate
            have hwc' : isJsWs c = false := by
              revert hwc; cases isJsWs c <;> simp
            constructor
            · intro ⟨hc', _⟩
              rw [hwc'] at hc'
              exact Bool.noConfusion hc'
            · intro ⟨hc', _⟩
              rw [hc'] at hwc'
              rw [isJsWs_nl] at hwc'
              exact Bool.noConfusion hwc'
  exact fun x => key x.length x le_rfl

/-! ### Identity of the whitespace stages on already-normalized text -/

theorem horiz_cases {c : Char} (h : isHorizWs c = true) :
    isTfvr c = true ∨ c = ' ' := by
  have hd : (((c = '\t' ∨ c = '\x0c') ∨ c = '\x0b') ∨ c = '\r') ∨ c = ' ' := by
    simpa [isHorizWs] using h
  rcases hd with (((rfl | rfl) | rfl) | rfl) | rfl
  · exact Or.inl (by decide)
  · exact Or.inl (by decide)
  · exact Or.inl (by decide)
  · exact Or.inl (by decide)
  · exact Or.inr rfl

theorem hc_id :
    ∀ x, (∀ c ∈ x, isTfvr c = false) → List.Chain' RSp x →
      scanL mHoriz [' '] x = x := by
  have key : ∀ (N : Nat) (x : List Char), x.length ≤ N →
      (∀ c ∈ x, isTfvr c = false) → List.Chain' RSp x →
      scanL mHoriz [' '] x = x := by
    intro N
    induction N with
    | zero =>
      intro x hx _ _
      obtain rfl : x = [] := List.eq_nil_of_length_eq_zero (Nat.le_zero.mp hx)
      rfl
    | succ N ih =>
      intro x hx h1 hch
      match x with
      | [] => rfl
      | c :: cs =>
        have hcs : cs.length ≤ N := by simpa using hx
        have h1' : ∀ c ∈ cs, isTfvr c = false :=
          fun d hd => h1 d (by simp [hd])
        have htail := (List.chain'_cons'.mp hch).2
        by_cases hc : isHorizWs c = true
        · have hcsp : c = ' ' := by
            rcases horiz_cases hc with ht | hsp
            · rw [h1 c (by simp)] at ht; exact Bool.noConfusion ht
            · exact hsp
          have hcw0 : countWhile isHorizWs cs = 0 := by
            cases cs with
            | nil => rfl
            | cons d ds =>
              apply countWhile_cons_false
              by_cases hd : isHorizWs d = true
              · rcases horiz_cases hd with ht | hsp
                · rw [h1' d (by simp)] at ht; exact Bool.noConfusion ht
                · exact absurd ⟨hcsp, hsp⟩
                    ((List.chain'_cons'.mp hch).1 d (by simp))
              · revert hd; cases isHorizWs d <;> simp
          have hm : mHoriz (c :: cs) = some 1 := by
            unfold mHoriz
            rw [countWhile_cons_true cs hc, hcw0]
            rfl
          rw [scanL_fire [' '] hm]
          rw [List.drop_zero]
          rw [ih cs hcs h1' htail, hcsp]
          rfl
        · have hm : mHoriz (c :: cs) = none :=
            mHoriz_none_of_head cs (by revert hc; cases isHorizWs c <;> simp)
          rw [scanL_skip _ hm, ih cs hcs h1' htail]
  exact fun x => key x.length x le_rfl

theorem nl3_id :
    ∀ x, List.Chain' RNl x → scanL mNl3 ['\n', '\n'] x = x := by
  have key : ∀ (N : Nat) (x : List Char), x.length ≤ N →
      List.Chain' RNl x → scanL mNl3 ['\n', '\n'] x = x := by
    intro N
    induction N with
    | zero =>
      intro x hx _
      obtain rfl : x = [] := List.eq_nil_of_length_eq_zero (Nat.le_zero.mp hx)
      rfl
    | succ N ih =>
      intro x hx hch
      match x with
      | [] => rfl
      | c :: cs =>
        have hcs : cs.length ≤ N := by simpa using hx
        have htail := (List.chain'_cons'.mp hch).2
        have hlt : countWhile (fun c => c == '\n') (c :: cs) < 3 := by
          by_cases hc : c = '\n'
          · have hcw0 : countWhile (fun c => c == '\n') cs = 0 := by
              cases cs with
              | nil => rfl
              | cons d ds =>
                apply countWhile_cons_false
                have hpair := (List.chain'_cons'.mp hch).1 d (by simp)
                have hd : d ≠ '\n' := by
                  intro hdn
                  exact hpair.2 ⟨hc, by rw [hdn]; exact isJsWs_nl⟩
                simpa using hd
            rw [countWhile_cons_true cs (by simpa using hc), hcw0]
            omega
          · rw [countWhile_cons_false cs (by simpa using hc)]
            omega
        have hm : mNl3 (c :: cs) = none := by
          unfold mNl3
          rw [if_neg (Nat.not_le_of_lt hlt)]
        rw [scanL_skip _ hm, ih cs hcs htail]
  exact fun x => key x.length x le_rfl

/-- In a string with no whitespace adjacent to a newline, a whitespace run
whose head is not a newline contains no newline at all. -/
theorem run_no_nl :
    ∀ (l : List Char), List.Chain' RNl l →
      (∀ c, l.head? = some c → c ≠ '\n') →
      ¬ '\n' ∈ l.take (countWhile isJsWs l) := by
  intro l
  induction l with
  | nil => intro _ _ h; simp at h
  | cons c cs ih =>
    intro hch hhead hmem
    by_cases hwc : isJsWs c = true
    · rw [countWhile_cons_true cs hwc, List.take_succ_cons] at hmem
      rcases List.mem_cons.mp hmem with hc | hmem'
      · exact hhead c rfl hc.symm
      · refine ih (List.chain'_cons'.mp hch).2 ?_ hmem'
        intro d hd hdn
        have hpair := (List.chain'_cons'.mp hch).1 d hd
        exact hpair.1 ⟨hwc, hdn⟩
    · rw [countWhile_cons_false cs
        (by revert hwc; cases isJsWs c <;> simp)] at hmem
      simp at hmem

theorem nlc_id :
    ∀ x, List.Chain' RNl x → scanL mNlRun ['\n'] x = x := by
  have key : ∀ (N : Nat) (x : List Char), x.length ≤ N →
      List.Chain' RNl x → scanL mNlRun ['\n'] x = x := by
    intro N
    induction N with
    | zero =>
      intro x hx _
      obtain rfl : x = [] := List.eq_nil_of_length_eq_zero (Nat.le_zero.mp hx)
      rfl
    | succ N ih =>
      intro x hx hch
      match x with
      | [] => rfl
      | c :: cs =>
        have hcs : cs.length ≤ N := by simpa using hx
        have htail := (List.chain'_cons'.mp hch).2
        by_cases hwc : isJsWs c = true
        · by_cases hcn : c = '\n'
          · subst hcn
            have hcw0 : countWhile isJsWs cs = 0 := by
              cases cs with
              | nil => rfl
              | cons d ds =>
                apply countWhile_cons_false
                have hpair := (List.chain'_cons'.mp hch).1 d (by simp)
                by_cases hd : isJsWs d = true
                · exact absurd ⟨rfl, hd⟩ hpair.2
                · revert hd; cases isJsWs d <;> simp
            have hm : mNlRun ('\n' :: cs) = some 1 := by
              unfold mNlRun
              rw [countWhile_cons_true cs hwc, hcw0]
              rfl
            rw [scanL_fire ['\n'] hm]
            rw [List.drop_zero]
            rw [ih cs hcs htail]
            rfl
          · have hno : ¬ '\n' ∈ (c :: cs).take (countWhile isJsWs (c :: cs)) := by
              apply run_no_nl (c :: cs) hch
              intro d hd
              simp at hd
              rw [← hd]
              exact hcn
            cases hm : mNlRun (c :: cs) with
            | some k =>
              obtain ⟨_, _, hmem⟩ := mNlRun_some hm
              exact absurd hmem hno
            | none => rw [scanL_skip _ hm, ih cs hcs htail]
        · have hm : mNlRun (c :: cs) = none :=
            mNlRun_none_of_head cs (by revert hwc; cases isJsWs c <;> simp)
          rw [scanL_skip _ hm, ih cs hcs htail]
  exact fun x => key x.length x le_rfl

/-! ### Facts about `trimJs` -/

theorem trimJs_eq (cs : List Char) :
    trimJs cs = List.rdropWhile isJsWs (cs.dropWhile isJsWs) := rfl

theorem dropWhile_head_false {p : Char → Bool} :
    ∀ (l : List Char) (c : Char), (l.dropWhile p).head? = some c →
      p c = false := by
  intro l
  induction l with
  | nil => intro c h; simp at h
  | cons a t ih =>
    intro c h
    rw [List.dropWhile_cons] at h
    by_cases ha : p a = true
    · rw [if_pos ha] at h
      exact ih c h
    · rw [if_neg ha] at h
      simp at h
      rw [← h]
      revert ha
      cases p a <;> simp


theorem trimJs_infix (cs : List Char) : trimJs cs <:+: cs := by
  rw [trimJs_eq]
  exact (List.rdropWhile_prefix isJsWs _).isInfix.trans
    (List.dropWhile_suffix isJsWs).isInfix

theorem trimJs_head_not_ws {cs : List Char} {c : Char}
    (h : (trimJs cs).head? = some c) : isJsWs c = false := by
  rw [trimJs_eq] at h
  obtain ⟨t, ht⟩ := List.rdropWhile_prefix isJsWs (cs.dropWhile isJsWs)
  rcases hr : List.rdropWhile isJsWs (cs.dropWhile isJsWs) with _ | ⟨a, t'⟩
  · rw [hr] at h; simp at h
  · rw [hr] at h ht
    simp at h
    apply dropWhile_head_false cs
    rw [← ht]
    simp [h]

theorem trimJs_getLast_not_ws {cs : List Char} {c : Char}
    (h : (trimJs cs).getLast? = some c) : isJsWs c = false := by
  rw [trimJs_eq] at h
  have hne : List.rdropWhile isJsWs (cs.dropWhile isJsWs) ≠ [] := by
    intro he
    rw [he] at h
    simp at h
  have hlast := List.rdropWhile_last_not isJsWs (cs.dropWhile isJsWs) hne
  rw [List.getLast?_eq_getLast_of_ne_nil hne] at h
  have hc : c = (List.rdropWhile isJsWs (cs.dropWhile isJsWs)).getLast hne := by
    simpa using h.symm
  rw [hc]
  revert hlast
  cases hb : isJsWs ((List.rdropWhile isJsWs (cs.dropWhile isJsWs)).getLast hne)
  · simp
  · simp

theorem trimJs_id {cs : List Char}
    (h1 : ∀ c, cs.head? = some c → isJsWs c = false)
    (h2 : ∀ c, cs.getLast? = some c → isJsWs c = false) : trimJs cs = cs := by
  have hd : cs.dropWhile isJsWs = cs := by
    cases cs with
    | nil => rfl
    | cons a t =>
      rw [List.dropWhile_cons, if_neg (by rw [h1 a rfl]; simp)]
  rw [trimJs_eq, hd]
  unfold List.rdropWhile
  rcases hrev : cs.reverse with _ | ⟨a, t⟩
  · simp at hrev
    rw [hrev]
    rfl
  · have hla : cs.getLast? = some a := by
      rw [← List.head?_reverse, hrev]
      rfl
    rw [List.dropWhile_cons, if_neg (by rw [h2 a hla]; simp)]
    rw [← hrev, List.reverse_reverse]

/-! ### The tag and entity matchers fire only on their first character -/

theorem matchScript_starts {c : Char} {cs : List Char} {n : Nat}
    (h : matchScript (c :: cs) = some n) : c = '<' := by
  unfold matchScript at h
  split at h
  case h_1 heq => exact List.head_eq_of_cons_eq heq
  case h_2 => exact Option.noConfusion h

theorem matchStyle_starts {c : Char} {cs : List Char} {n : Nat}
    (h : matchStyle (c :: cs) = some n) : c = '<' := by
  unfold matchStyle at h
  split at h
  case h_1 heq => exact List.head_eq_of_cons_eq heq
  case h_2 => exact Option.noConfusion h

theorem matchComment_starts {c : Char} {cs : List Char} {n : Nat}
    (h : matchComment (c :: cs) = some n) : c = '<' := by
  unfold matchComment at h
  split at h
  case h_1 heq => exact List.head_eq_of_cons_eq heq
  case h_2 => exact Option.noConfusion h

theorem matchOpenTag_starts {nm : List Char} {c : Char} {cs : List Char}
    {n : Nat} (h : matchOpenTag nm (c :: cs) = some n) : c = '<' := by
  unfold matchOpenTag at h
  split at h
  case h_1 heq => exact List.head_eq_of_cons_eq heq
  case h_2 => exact Option.noConfusion h

theorem matchBlockTag_starts {c : Char} {cs : List Char} {n : Nat}
    (h : matchBlockTag (c :: cs) = some n) : c = '<' := by
  unfold matchBlockTag at h
  split at h
  case h_1 heq => exact List.head_eq_of_cons_eq heq
  case h_2 => exact Option.noConfusion h

theorem matchAnyTag_starts {c : Char} {cs : List Char} {n : Nat}
    (h : matchAnyTag (c :: cs) = some n) : c = '<' := by
  unfold matchAnyTag at h
  split at h
  case h_1 heq => exact List.head_eq_of_cons_eq heq
  case h_2 => exact Option.noConfusion h

theorem matchLitE_starts {l : Char} {ls : List Char} {c : Char}
    {cs : List Char} {n : Nat} (h : matchLitE (l :: ls) (c :: cs) = some n) :
    c = l := by
  unfold matchLitE at h
  by_cases hb : litAt (l :: ls) (c :: cs) = true
  · have : (decide (c = l) && litAt ls cs) = true := hb
    simp at this
    exact this.1
  · rw [if_neg hb] at h
    exact Option.noConfusion h

theorem matchLitE_starts' {lit : List Char} {c : Char} {cs : List Char}
    {n : Nat} (hl : lit.head? = some '&')
    (h : matchLitE lit (c :: cs) = some n) : c = '&' := by
  match lit, hl with
  | l :: ls, hl =>
    simp at hl
    rw [matchLitE_starts h]
    exact hl

/-! ### The non-whitespace stages of `cleanHtmlContent`, as one block -/

theorem cleanHtmlList_decompose (cs : List Char) :
    cleanHtmlList cs =
      trimJs (scanL mNlRun ['\n'] (scanL mNl3 ['\n', '\n']
        (scanL mHoriz [' '] (preWsStages cs)))) := rfl

/-- On a string containing neither `<` nor `&`, every tag and entity stage is
the identity. -/
theorem preWsStages_id {t : List Char} (hlt : ¬ '<' ∈ t) (hamp : ¬ '&' ∈ t) :
    preWsStages t = t := by
  have hPlt : ∀ c ∈ t, ¬ c = '<' := fun c hc he => hlt (he ▸ hc)
  have hPamp : ∀ c ∈ t, ¬ c = '&' := fun c hc he => hamp (he ▸ hc)
  show scanL (matchLitE "&nbsp;".toList) [' ']
    (scanL (matchLitE "&#39;".toList) ['\'']
    (scanL (matchLitE "&quot;".toList) ['"']
    (scanL (matchLitE "&gt;".toList) ['>']
    (scanL (matchLitE "&lt;".toList) ['<']
    (scanL (matchLitE "&amp;".toList) ['&']
    (scanL matchAnyTag [' ']
    (scanL (matchOpenTag "br".toList) ['\n']
    (scanL matchBlockTag ['\n']
    (scanL (matchOpenTag "/li".toList) ['\n']
    (scanL (matchOpenTag "li".toList) ['\n', '-', ' ']
    (scanL matchComment []
    (scanL matchStyle []
    (scanL matchScript [] t))))))))))))) = t
  rw [scanL_id_of_free matchScript [] _
    (fun c cs n h => matchScript_starts h) t hPlt]
  rw [scanL_id_of_free matchStyle [] _
    (fun c cs n h => matchStyle_starts h) t hPlt]
  rw [scanL_id_of_free matchComment [] _
    (fun c cs n h => matchComment_starts h) t hPlt]
  rw [scanL_id_of_free (matchOpenTag "li".toList) ['\n', '-', ' '] _
    (fun c cs n h => matchOpenTag_starts h) t hPlt]
  rw [scanL_id_of_free (matchOpenTag "/li".toList) ['\n'] _
    (fun c cs n h => matchOpenTag_starts h) t hPlt]
  rw [scanL_id_of_free matchBlockTag ['\n'] _
    (fun c cs n h => matchBlockTag_starts h) t hPlt]
  rw [scanL_id_of_free (matchOpenTag "br".toList) ['\n'] _
    (fun c cs n h => matchOpenTag_starts h) t hPlt]
  rw [scanL_id_of_free matchAnyTag [' '] _
    (fun c cs n h => matchAnyTag_starts h) t hPlt]
  rw [scanL_id_of_free (matchLitE "&amp;".toList) ['&'] _
    (fun c cs n h => matchLitE_starts' (by rfl) h) t hPamp]
  rw [scanL_id_of_free (matchLitE "&lt;".toList) ['<'] _
    (fun c cs n h => matchLitE_starts' (by rfl) h) t hPamp]
  rw [scanL_id_of_free (matchLitE "&gt;".toList) ['>'] _
    (fun c cs n h => matchLitE_starts' (by rfl) h) t hPamp]
  rw [scanL_id_of_free (matchLitE "&quot;".toList) ['"'] _
    (fun c cs n h => matchLitE_starts' (by rfl) h) t hPamp]
  rw [scanL_id_of_free (matchLitE "&#39;".toList) ['\''] _
    (fun c cs n h => matchLitE_starts' (by rfl) h) t hPamp]
  rw [scanL_id_of_free (matchLitE "&nbsp;".toList) [' '] _
    (fun c cs n h => matchLitE_starts' (by rfl) h) t hPamp]

/-! ### Script/style blocks are removed together with their inner text -/

theorem lowc_eq_lt {x : Char} (h : lowc x = '<') : x = '<' := by
  unfold lowc at h
  by_cases hc : 'A' ≤ x ∧ x ≤ 'Z'
  · rw [if_pos hc] at h
    exfalso
    have h1 : (65 : Nat) ≤ x.toNat := hc.1
    have h2 : x.toNat ≤ 90 := hc.2
    have hv : (Char.ofNat (x.toNat + 32)).toNat = x.toNat + 32 := by
      unfold Char.ofNat
      rw [dif_pos (Or.inl (by omega) : Nat.isValidChar (x.toNat + 32))]
      rfl
    rw [h] at hv
    have h60 : (60 : Nat) = x.toNat + 32 := hv
    omega
  · rw [if_neg hc] at h
    exact h

theorem litAtCI_self_append :
    ∀ (lit rest : List Char), litAtCI lit (lit ++ rest) = true := by
  intro lit
  induction lit with
  | nil => intro rest; rfl
  | cons l ls ih =>
    intro rest
    show (decide (lowc l = lowc l) && litAtCI ls (ls ++ rest)) = true
    simp [ih rest]

theorem litAtCI_head_lt_false {cl : List Char} {x : Char} {rest : List Char}
    (hhd : cl.head? = some '<') (hx : x ≠ '<') :
    litAtCI cl (x :: rest) = false := by
  match cl, hhd with
  | l :: cl', hhd =>
    have hl : l = '<' := by simpa using hhd
    subst hl
    show (decide (lowc x = lowc '<') && litAtCI cl' rest) = false
    have hne : lowc x ≠ '<' := fun hl => hx (lowc_eq_lt hl)
    have hlt : lowc '<' = '<' := rfl
    rw [hlt]
    simp [hne]

theorem findCIEnd_through :
    ∀ (b : List Char), ¬ '<' ∈ b → ∀ (cl q : List Char),
      cl.head? = some '<' →
      findCIEnd cl (b ++ (cl ++ q)) = some (b.length + cl.length) := by
  intro b
  induction b with
  | nil =>
    intro _ cl q hhd
    match cl, hhd with
    | l :: cl', hhd =>
      have hl : l = '<' := by simpa using hhd
      subst hl
      show findCIEnd ('<' :: cl') ('<' :: (cl' ++ q)) = _
      unfold findCIEnd
      rw [if_pos (show litAtCI ('<' :: cl') ('<' :: (cl' ++ q)) = true from
        litAtCI_self_append ('<' :: cl') q)]
      simp
  | cons x b' ih =>
    intro hb cl q hhd
    have hx : x ≠ '<' := fun he => hb (by simp [he])
    have hb' : ¬ '<' ∈ b' := fun he => hb (by simp [he])
    show findCIEnd cl (x :: (b' ++ (cl ++ q))) = _
    unfold findCIEnd
    rw [if_neg (by rw [litAtCI_head_lt_false hhd hx]; simp)]
    rw [ih hb' cl q hhd]
    show some (b'.length + cl.length + 1) = _
    simp
    omega

theorem matchScript_block (b q : List Char) (hb : ¬ '<' ∈ b) :
    matchScript ("<script>".toList ++ (b ++ ("</script>".toList ++ q))) =
      some (16 + b.length + 1) := by
  show (match findCIEnd "</script>".toList (b ++ ("</script>".toList ++ q)) with
        | some m => some (1 + 6 + 0 + 1 + m)
        | none => none) = some (16 + b.length + 1)
  rw [findCIEnd_through b hb "</script>".toList q rfl]
  show some (1 + 6 + 0 + 1 + (b.length + 9)) = _
  simp
  omega

theorem matchStyle_block (b q : List Char) (hb : ¬ '<' ∈ b) :
    matchStyle ("<style>".toList ++ (b ++ ("</style>".toList ++ q))) =
      some (14 + b.length + 1) := by
  show (match findCIEnd "</style>".toList (b ++ ("</style>".toList ++ q)) with
        | some m => some (1 + 5 + 0 + 1 + m)
        | none => none) = some (14 + b.length + 1)
  rw [findCIEnd_through b hb "</style>".toList q rfl]
  show some (1 + 5 + 0 + 1 + (b.length + 8)) = _
  simp
  omega

theorem scrubScript_block (p b q : List Char) (hp : ¬ '<' ∈ p)
    (hb : ¬ '<' ∈ b) :
    scanL matchScript []
        (p ++ ("<script>".toList ++ (b ++ ("</script>".toList ++ q)))) =
      p ++ scanL matchScript [] q := by
  rw [scanL_append_left matchScript [] (fun c => c = '<')
    (fun c cs n h => matchScript_starts h) p _
    (fun c hc he => hp (he ▸ hc))]
  congr 1
  have hm := matchScript_block b q hb
  have hfire := scanL_fire ([] : List Char)
    (show matchScript ('<' :: ("script>".toList ++ (b ++ ("</script>".toList ++ q))))
        = some (16 + b.length + 1) from hm)
  rw [show ('<' :: ("script>".toList ++ (b ++ ("</script>".toList ++ q)))) =
    "<script>".toList ++ (b ++ ("</script>".toList ++ q)) from rfl] at hfire
  rw [hfire]
  rw [List.nil_append]
  congr 1
  show List.drop (16 + b.length)
    ("script>".toList ++ (b ++ ("</script>".toList ++ q))) = q
  rw [show 16 + b.length = "script>".toList.length + (b.length + 9) from by
    show 16 + b.length = 7 + (b.length + 9)
    omega]
  rw [List.drop_append]
  rw [show b.length + 9 = b.length + "</script>".toList.length from rfl]
  rw [List.drop_append]
  exact List.drop_left "</script>".toList q

theorem scrubStyle_block (p b q : List Char) (hp : ¬ '<' ∈ p)
    (hb : ¬ '<' ∈ b) :
    scanL matchStyle []
        (p ++ ("<style>".toList ++ (b ++ ("</style>".toList ++ q)))) =
      p ++ scanL matchStyle [] q := by
  rw [scanL_append_left matchStyle [] (fun c => c = '<')
    (fun c cs n h => matchStyle_starts h) p _
    (fun c hc he => hp (he ▸ hc))]
  congr 1
  have hm := matchStyle_block b q hb
  have hfire := scanL_fire ([] : List Char)
    (show matchStyle ('<' :: ("style>".toList ++ (b ++ ("</style>".toList ++ q))))
        = some (14 + b.length + 1) from hm)
  rw [show ('<' :: ("style>".toList ++ (b ++ ("</style>".toList ++ q)))) =
    "<style>".toList ++ (b ++ ("</style>".toList ++ q)) from rfl] at hfire
  rw [hfire]
  rw [List.nil_append]
  congr 1
  show List.drop (14 + b.length)
    ("style>".toList ++ (b ++ ("</style>".toList ++ q))) = q
  rw [show 14 + b.length = "style>".toList.length + (b.length + 8) from by
    show 14 + b.length = 6 + (b.length + 8)
    omega]
  rw [List.drop_append]
  rw [show b.length + 8 = b.length + "</style>".toList.length from rfl]
  rw [List.drop_append]
  exact List.drop_left "</style>".toList q

/-! ### Claims C3, C8, C10 -/

/-- Claim C3 is false as stated: `cleanHtmlContent` is not idempotent.  The
entity decode of the first pass can manufacture a new entity (here
`&amp;amp;` → `&amp;`), which the second pass decodes further. -/
theorem claim_C3_counterexample :
    cleanHtmlContent (cleanHtmlContent "&amp;amp;") ≠
      cleanHtmlContent "&amp;amp;" := by decide

/-- Claim C8 is false as stated: `cleanHtmlContent` does not remove the
non-content containers `<nav>`, `<header>`, `<footer>` — it only strips their
tags, and their inner text survives in the output. -/
theorem claim_C8_counterexample :
    cleanHtmlContent "<nav>menu</nav>" = "menu" ∧
    cleanHtmlContent "<header>site title</header>" = "site title" ∧
    cleanHtmlContent "<footer>copyright</footer>" = "copyright" := by
  refine ⟨?_, ?_, ?_⟩ <;> decide

/-- Claim C8 (amended): `cleanHtmlContent` removes `<script>…</script>` and
`<style>…</style>` blocks entirely, including their inner text (shown here for
blocks whose body contains no `<`, surrounded by arbitrary context); for
`<nav>`, `<header>`, `<footer>` and other unrecognized containers it removes
only the tags and keeps the inner text.  Whole-container removal exists only
in the DOM-based `extractCleanText` of the client-side service. -/
theorem claim_C8_amended_scrub :
    (∀ p b q : List Char, ¬ '<' ∈ p → ¬ '<' ∈ b →
      scanL matchScript []
          (p ++ ("<script>".toList ++ (b ++ ("</script>".toList ++ q)))) =
        p ++ scanL matchScript [] q) ∧
    (∀ p b q : List Char, ¬ '<' ∈ p → ¬ '<' ∈ b →
      scanL matchStyle []
          (p ++ ("<style>".toList ++ (b ++ ("</style>".toList ++ q)))) =
        p ++ scanL matchStyle [] q) ∧
    cleanHtmlContent "<script>var x=1;</script>ok<nav>Navigation menu</nav>" =
      "ok Navigation menu" :=
  ⟨scrubScript_block, scrubStyle_block, by decide⟩

theorem claim_C8_amended_witness :
    scanL matchScript []
        ("a".toList ++ ("<script>".toList ++
          ("x=1;".toList ++ ("</script>".toList ++ "z".toList)))) =
      "a".toList ++ scanL matchScript [] "z".toList :=
  claim_C8_amended_scrub.1 "a".toList "x=1;".toList "z".toList
    (by decide) (by decide)

theorem c3_witness_no_lt : ¬ '<' ∈ (cleanHtmlContent "a b").toList := by
  decide

theorem c3_witness_no_amp : ¬ '&' ∈ (cleanHtmlContent "a b").toList := by
  decide

/-! ### The ingredient structurer: quantity matching and the
quantity-less fallback -/

theorem countWhile_prefix_all {p : Char → Bool} :
    ∀ (xs rest : List Char), (∀ x ∈ xs, p x = true) →
      (∀ d, rest.head? = some d → p d = false) →
      countWhile p (xs ++ rest) = xs.length := by
  intro xs
  induction xs with
  | nil =>
    intro rest _ hstop
    cases rest with
    | nil => rfl
    | cons d r => exact countWhile_cons_false r (hstop d rfl)
  | cons a t ih =>
    intro rest hall hstop
    rw [List.cons_append,
      countWhile_cons_true _ (hall a (List.mem_cons_self a t)),
      ih rest (fun x hx => hall x (List.mem_cons_of_mem a hx)) hstop]
    rfl

theorem head_not_of_append {p : Char → Bool} {w X : List Char}
    (hw0 : w ≠ []) (hw : ∀ x ∈ w, p x = false) :
    ∀ d, (w ++ X).head? = some d → p d = false := by
  intro d hd
  cases w with
  | nil => exact absurd rfl hw0
  | cons a t =>
    rw [List.cons_append, List.head?_cons] at hd
    cases hd
    exact hw _ (List.mem_cons_self _ _)

theorem fracAt_fires {b c rest : List Char}
    (hb : ∀ x ∈ b, isDigitCh x = true) (hb0 : b ≠ [])
    (hc : ∀ x ∈ c, isDigitCh x = true) (hc0 : c ≠ [])
    (hrest : ∀ d, rest.head? = some d → isDigitCh d = false) :
    fracAt (b ++ '/' :: (c ++ rest)) = some (b.length + 1 + c.length) := by
  have h1 : countWhile isDigitCh (b ++ '/' :: (c ++ rest)) = b.length :=
    countWhile_prefix_all b _ hb
      (by intro d hd; rw [List.head?_cons] at hd; cases hd; rfl)
  have h2 : countWhile isDigitCh (c ++ rest) = c.length :=
    countWhile_prefix_all c rest hc hrest
  unfold fracAt
  rw [h1, List.drop_left, if_pos (List.length_pos.mpr hb0)]
  show (if 0 < countWhile isDigitCh (c ++ rest) then
      some (b.length + 1 + countWhile isDigitCh (c ++ rest)) else none) =
    some (b.length + 1 + c.length)
  rw [h2, if_pos (List.length_pos.mpr hc0)]

theorem mixedAt_fires {a w b c rest : List Char}
    (ha : ∀ x ∈ a, isDigitCh x = true) (_ha0 : a ≠ [])
    (hw : ∀ x ∈ w, isJsWs x = true ∧ isDigitCh x = false) (hw0 : w ≠ [])
    (hb : ∀ x ∈ b, isDigitCh x = true ∧ isJsWs x = false) (hb0 : b ≠ [])
    (hc : ∀ x ∈ c, isDigitCh x = true) (hc0 : c ≠ [])
    (hrest : ∀ d, rest.head? = some d → isDigitCh d = false) :
    mixedAt (a ++ (w ++ (b ++ '/' :: (c ++ rest)))) =
      some (a.length + w.length + (b.length + 1 + c.length)) := by
  have hd1 :
      countWhile isDigitCh (a ++ (w ++ (b ++ '/' :: (c ++ rest)))) =
        a.length :=
    countWhile_prefix_all a _ ha
      (head_not_of_append hw0 (fun x hx => (hw x hx).2))
  have hw1 :
      countWhile isJsWs (w ++ (b ++ '/' :: (c ++ rest))) = w.length :=
    countWhile_prefix_all w _ (fun x hx => (hw x hx).1)
      (head_not_of_append hb0 (fun x hx => (hb x hx).2))
  unfold mixedAt
  rw [hd1, List.drop_left, hw1, List.drop_left,
    fracAt_fires (fun x hx => (hb x hx).1) hb0 hc hc0 hrest,
    if_pos (List.length_pos.mpr hw0)]
  rfl

theorem matchAmount_mixed {a w b c rest : List Char}
    (ha : ∀ x ∈ a, isDigitCh x = true) (ha0 : a ≠ [])
    (hw : ∀ x ∈ w, isJsWs x = true ∧ isDigitCh x = false) (hw0 : w ≠ [])
    (hb : ∀ x ∈ b, isDigitCh x = true ∧ isJsWs x = false) (hb0 : b ≠ [])
    (hc : ∀ x ∈ c, isDigitCh x = true) (hc0 : c ≠ [])
    (hrest : ∀ d, rest.head? = some d → isDigitCh d = false) :
    matchAmount (a ++ (w ++ (b ++ '/' :: (c ++ rest)))) =
      some (a.length + w.length + (b.length + 1 + c.length)) := by
  have hd1 :
      countWhile isDigitCh (a ++ (w ++ (b ++ '/' :: (c ++ rest)))) =
        a.length :=
    countWhile_prefix_all a _ ha
      (head_not_of_append hw0 (fun x hx => (hw x hx).2))
  unfold matchAmount
  rw [hd1, if_pos (List.length_pos.mpr ha0),
    mixedAt_fires ha ha0 hw hw0 hb hb0 hc hc0 hrest]
  rfl

/-- C6: mixed-number priority in the deterministic ingredient parser: the
concrete input "1 1/2 cups sugar" yields amount "1 1/2" (not "1"), and in
general the quantity matcher, trying mixed number, range, vulgar fraction,
decimal, integer and fraction glyph in that order, matches a leading
mixed number (digits, whitespace, digits, slash, digits) in full, never
as only its integer part. -/
theorem claim_C6_mixed_number_priority :
    parseIngredientHeuristic "1 1/2 cups sugar" =
      ⟨"sugar", "1 1/2", "cups"⟩ ∧
    ∀ a w b c rest : List Char,
      (∀ x ∈ a, isDigitCh x = true) → a ≠ [] →
      (∀ x ∈ w, isJsWs x = true ∧ isDigitCh x = false) → w ≠ [] →
      (∀ x ∈ b, isDigitCh x = true ∧ isJsWs x = false) → b ≠ [] →
      (∀ x ∈ c, isDigitCh x = true) → c ≠ [] →
      (∀ d, rest.head? = some d → isDigitCh d = false) →
      matchAmount (a ++ (w ++ (b ++ '/' :: (c ++ rest)))) =
        some (a.length + w.length + (b.length + 1 + c.length)) :=
  ⟨by decide, fun a w b c rest ha ha0 hw hw0 hb hb0 hc hc0 hrest =>
    matchAmount_mixed ha ha0 hw hw0 hb hb0 hc hc0 hrest⟩

/-- Witness for C6 at a concrete decomposition of "1 1/2 cups sugar". -/
theorem claim_C6_witness :
    matchAmount
        (['1'] ++ ([' '] ++ (['1'] ++ '/' ::
          (['2'] ++ (' ' :: "cups sugar".toList))))) = some 5 := by
  have h := claim_C6_mixed_number_priority.2 ['1'] [' '] ['1'] ['2']
    (' ' :: "cups sugar".toList)
    (by decide) (by decide) (by decide) (by decide) (by decide) (by decide)
    (by decide) (by decide)
    (by intro d hd; rw [List.head?_cons] at hd; cases hd; rfl)
  simpa using h

/-- C7 counterexample: "cups of flour" has no leading quantity token, yet
the parser does not return the entire string as the name with empty
amount and unit: it still extracts the unit "cups" and strips "of". -/
theorem claim_C7_counterexample :
    matchAmount (trimJs (bulletStrip
        (trimJs ("cups of flour" : String).toList))) = none ∧
    parseIngredientHeuristic "cups of flour" = ⟨"flour", "", "cups"⟩ ∧
    parseIngredientHeuristic "cups of flour" ≠
      ⟨"cups of flour", "", ""⟩ := by decide

theorem trimJs_idem (cs : List Char) : trimJs (trimJs cs) = trimJs cs :=
  trimJs_id (fun _ h => trimJs_head_not_ws h)
    (fun _ h => trimJs_getLast_not_ws h)

/-- C7 (amended): if the bullet-stripped trimmed line has no leading
quantity token, no leading unit token, and no leading "of" to strip, the
parser returns that entire string as the name with empty amount and
unit. -/
theorem claim_C7_quantityless_fallback (line : String)
    (hamt : matchAmount (trimJs (bulletStrip (trimJs line.toList))) = none)
    (hunit : matchUnit (trimJs (bulletStrip (trimJs line.toList))) = none)
    (hof : ofStrip (trimJs (bulletStrip (trimJs line.toList))) =
      trimJs (bulletStrip (trimJs line.toList))) :
    parseIngredientHeuristic line =
      ⟨(trimJs (bulletStrip (trimJs line.toList))).asString, "", ""⟩ := by
  unfold parseIngredientHeuristic
  simp only [hamt, hunit, hof, trimJs_idem]
  rfl

/-- Witness for C7 at the concrete line "salt to taste". -/
theorem claim_C7_witness :
    parseIngredientHeuristic "salt to taste" =
      ⟨"salt to taste", "", ""⟩ := by
  have h := claim_C7_quantityless_fallback "salt to taste"
    (by decide) (by decide) (by decide)
  rw [show (trimJs (bulletStrip
      (trimJs ("salt to taste" : String).toList))).asString =
    "salt to taste" from by decide] at h
  exact h

/-! ### The request handler: structured-data precedence and the error
paths -/

/-- C1: structured-data precedence: when the JSON-LD extractor finds a
recipe (some parsed block yields non-empty normalized ingredients or
instructions), the response is success with exactly the normalizer
outputs as ingredients and instructions and no error, the AI extraction
outcome never influences the response, and any parsed block with an
accepted candidate node guarantees the extractor fires. -/
theorem claim_C1_structured_data_precedence
    (blocks : List (Option Json)) (key : String) (ai ai' : AiOutcome)
    (net : Option Json) (ing ins : List String)
    (hx : extractFromJsonLd blocks = some (ing, ins)) :
    ((serveAfterFetch blocks key ai net).success = true ∧
     (serveAfterFetch blocks key ai net).status = 200 ∧
     (serveAfterFetch blocks key ai net).ingredients = ing ∧
     (serveAfterFetch blocks key ai net).instructions = ins ∧
     (serveAfterFetch blocks key ai net).error = none) ∧
    serveAfterFetch blocks key ai net = serveAfterFetch blocks key ai' net ∧
    ∀ (bs : List (Option Json)) (j : Json) (r : List String × List String),
      some j ∈ bs → scanNodes (candidatesOf j) = some r →
      ∃ r', extractFromJsonLd bs = some r' := by
  refine ⟨?_, ?_, ?_⟩
  · unfold serveAfterFetch
    rw [hx]
    exact ⟨rfl, rfl, rfl, rfl, rfl⟩
  · unfold serveAfterFetch
    rw [hx]
  · intro bs j r
    induction bs with
    | nil => intro hmem _; cases hmem
    | cons b rest ih =>
      intro hmem hscan
      rcases List.mem_cons.mp hmem with hb | hmem'
      · refine ⟨r, ?_⟩
        rw [← hb]
        show (match scanNodes (candidatesOf j) with
          | some r0 => some r0
          | none => extractFromJsonLd rest) = some r
        rw [hscan]
      · obtain ⟨r', hr'⟩ := ih hmem' hscan
        cases b with
        | none => exact ⟨r', hr'⟩
        | some j2 =>
          cases hs : scanNodes (candidatesOf j2) with
          | some r2 =>
            refine ⟨r2, ?_⟩
            show (match scanNodes (candidatesOf j2) with
              | some r0 => some r0
              | none => extractFromJsonLd rest) = some r2
            rw [hs]
          | none =>
            refine ⟨r', ?_⟩
            show (match scanNodes (candidatesOf j2) with
              | some r0 => some r0
              | none => extractFromJsonLd rest) = some r'
            rw [hs]
            exact hr'

/-- Witness for C1 at a single JSON-LD block carrying a Recipe node. -/
theorem claim_C1_witness :
    (serveAfterFetch
        [some (Json.obj [("@type", Json.str "Recipe"),
          ("recipeIngredient", Json.arr [Json.str "2 cups flour"])])]
        "" AiOutcome.parseFail none).success = true ∧
    (serveAfterFetch
        [some (Json.obj [("@type", Json.str "Recipe"),
          ("recipeIngredient", Json.arr [Json.str "2 cups flour"])])]
        "" AiOutcome.parseFail none).ingredients = ["2 cups flour"] ∧
    (serveAfterFetch
        [some (Json.obj [("@type", Json.str "Recipe"),
          ("recipeIngredient", Json.arr [Json.str "2 cups flour"])])]
        "" AiOutcome.parseFail none).instructions = [] := by
  have h := claim_C1_structured_data_precedence
    [some (Json.obj [("@type", Json.str "Recipe"),
      ("recipeIngredient", Json.arr [Json.str "2 cups flour"])])]
    "" AiOutcome.parseFail (AiOutcome.httpFail 0) none
    ["2 cups flour"] [] rfl
  exact ⟨h.1.1, h.1.2.2.1, h.1.2.2.2.1⟩

/-- C2 counterexample: with no JSON-LD recipe and the AI backend
unavailable (no API key, or the HTTP call failing), the handler returns
success:false with status 500 - not success:true with empty arrays. -/
theorem claim_C2_counterexample :
    ((serveAfterFetch [] "" AiOutcome.parseFail none).success = false ∧
     (serveAfterFetch [] "" AiOutcome.parseFail none).status = 500 ∧
     (serveAfterFetch [] "" AiOutcome.parseFail none).error =
       some (Json.str "OpenAI API key not configured")) ∧
    ((serveAfterFetch [] "k" (AiOutcome.httpFail 503) none).success = false ∧
     (serveAfterFetch [] "k" (AiOutcome.httpFail 503) none).status = 500 ∧
     (serveAfterFetch [] "k" (AiOutcome.httpFail 503) none).error =
       some (Json.str "AI API error: 503")) :=
  ⟨⟨rfl, rfl, rfl⟩, ⟨rfl, rfl, rfl⟩⟩

/-- C2 (amended): when the JSON-LD extractor finds nothing, a missing
API key or a failed AI HTTP call always yields a success:false
status-500 response; there is no heuristic fallback in the handler. -/
theorem claim_C2_no_graceful_degradation (blocks : List (Option Json))
    (key : String) (st : Nat) (net : Option Json)
    (hx : extractFromJsonLd blocks = none) :
    ((serveAfterFetch blocks "" (AiOutcome.httpFail st) net).success =
        false ∧
     (serveAfterFetch blocks "" (AiOutcome.httpFail st) net).status =
        500) ∧
    (key ≠ "" →
      (serveAfterFetch blocks key (AiOutcome.httpFail st) net).success =
          false ∧
      (serveAfterFetch blocks key (AiOutcome.httpFail st) net).status =
          500 ∧
      (serveAfterFetch blocks key (AiOutcome.httpFail st) net).error =
        some (Json.str ("AI API error: " ++ toString st))) := by
  constructor
  · unfold serveAfterFetch
    rw [hx]
    exact ⟨rfl, rfl⟩
  · intro hk
    unfold serveAfterFetch
    rw [hx, if_neg hk]
    exact ⟨rfl, rfl, rfl⟩

/-- Witness for C2 with no blocks and a failed AI call. -/
theorem claim_C2_witness :
    ((serveAfterFetch [] "" (AiOutcome.httpFail 404) none).success =
        false ∧
     (serveAfterFetch [] "" (AiOutcome.httpFail 404) none).status =
        500) ∧
    ((serveAfterFetch [] "sk" (AiOutcome.httpFail 404) none).success =
        false ∧
     (serveAfterFetch [] "sk" (AiOutcome.httpFail 404) none).status =
        500 ∧
     (serveAfterFetch [] "sk" (AiOutcome.httpFail 404) none).error =
       some (Json.str "AI API error: 404")) := by
  have h := claim_C2_no_graceful_degradation [] "sk" 404 none rfl
  exact ⟨h.1, h.2 (by decide)⟩

/-- C4: when the AI response parses to an object whose `error` field is
truthy, the handler returns success:false with that error value and
status 400; HTTP failures and unparsable responses get status 500. -/
theorem claim_C4_sentinel_error_handling (blocks : List (Option Json))
    (key : String) (net : Option Json) (recipeData : Json)
    (hx : extractFromJsonLd blocks = none) (hk : key ≠ "")
    (herr : truthy (getField recipeData "error") = true) :
    ((serveAfterFetch blocks key (AiOutcome.parsed recipeData)
        net).success = false ∧
     (serveAfterFetch blocks key (AiOutcome.parsed recipeData)
        net).status = 400 ∧
     (serveAfterFetch blocks key (AiOutcome.parsed recipeData)
        net).error = some (getField recipeData "error")) ∧
    (∀ st,
      (serveAfterFetch blocks key (AiOutcome.httpFail st) net).status =
        500) ∧
    (serveAfterFetch blocks key AiOutcome.parseFail net).status = 500 := by
  have hnn : isNull recipeData = false := by
    cases recipeData with
    | null =>
      rw [show getField Json.null "error" = Json.null from rfl] at herr
      cases herr
    | bool b => rfl
    | num n => rfl
    | str t => rfl
    | arr xs => rfl
    | obj fs => rfl
  refine ⟨⟨?_, ?_, ?_⟩, fun st => ?_, ?_⟩ <;>
    simp [serveAfterFetch, hx, if_neg hk, hnn, herr]

/-- Witness for C4 at the sentinel object from the system prompt. -/
theorem claim_C4_witness :
    (serveAfterFetch [] "k"
        (AiOutcome.parsed (Json.obj [("error",
          Json.str "No recipe found")])) none).status = 400 ∧
    (serveAfterFetch [] "k"
        (AiOutcome.parsed (Json.obj [("error",
          Json.str "No recipe found")])) none).success = false ∧
    (serveAfterFetch [] "k"
        (AiOutcome.parsed (Json.obj [("error",
          Json.str "No recipe found")])) none).error =
      some (Json.str "No recipe found") ∧
    (serveAfterFetch [] "k" (AiOutcome.httpFail 502) none).status =
      500 := by
  have h := claim_C4_sentinel_error_handling [] "k" none
    (Json.obj [("error", Json.str "No recipe found")]) rfl (by decide) rfl
  exact ⟨h.1.2.1, h.1.1, h.1.2.2, h.2.1 502⟩

/-- C5 counterexample: the AI refinement path imposes no length check:
a two-element input refined to a one-element array is accepted and used,
so `structuredIngredients` need not have the input's length. -/
theorem claim_C5_counterexample :
    refineResult "k" ["2 cups flour", "1 egg"]
        (some (Json.arr [Json.obj []])) =
      some [(⟨"", "", ""⟩ : StructuredIngredient)] ∧
    chooseStructured ["2 cups flour", "1 egg"]
        (some [(⟨"", "", ""⟩ : StructuredIngredient)]) =
      [(⟨"", "", ""⟩ : StructuredIngredient)] ∧
    (["2 cups flour", "1 egg"] : List String).length = 2 ∧
    ([(⟨"", "", ""⟩ : StructuredIngredient)]).length = 1 :=
  ⟨rfl, rfl, rfl, rfl⟩

/-- C5 (amended): the deterministic fallback path preserves length and
order (entry i is the parse of input i), the fallback is taken whenever
the AI refinement yields null, and the AI refinement result is the
mapped model output with no length check whatsoever. -/
theorem claim_C5_order_preservation :
    (∀ l : List String,
      (buildStructuredIngredients l).length = l.length ∧
      ∀ i : Nat, (buildStructuredIngredients l)[i]? =
        (l[i]?).map parseIngredientHeuristic) ∧
    (∀ key flat net, refineResult key flat net = none →
      chooseStructured flat (refineResult key flat net) =
        buildStructuredIngredients flat) ∧
    (∀ (key : String) (flat : List String) (xs : List Json),
      key ≠ "" → flat ≠ [] →
      refineResult key flat (some (Json.arr xs)) =
        some (xs.map jsonToIngredient)) := by
  refine ⟨fun l => ⟨?_, fun i => ?_⟩,
    fun key flat net h => ?_, fun key flat xs hk hf => ?_⟩
  · simp [buildStructuredIngredients]
  · simp [buildStructuredIngredients]
  · rw [h]
    rfl
  · unfold refineResult
    rw [if_neg hk, if_neg hf]

/-- Witness for C5 at concrete lists. -/
theorem claim_C5_witness :
    (buildStructuredIngredients ["2 cups flour"]).length = 1 ∧
    (buildStructuredIngredients ["2 cups flour"])[0]? =
      some (parseIngredientHeuristic "2 cups flour") ∧
    refineResult "k" ["x"] (some (Json.arr [])) = some [] := by
  have h := claim_C5_order_preservation
  refine ⟨(h.1 ["2 cups flour"]).1, ?_,
    h.2.2 "k" ["x"] [] (by decide) (by decide)⟩
  rw [(h.1 ["2 cups flour"]).2 0]
  rfl

/-! ### Deduplication invariants of the heuristic NL parser -/

theorem dedupKeepFirst_nodup :
    ∀ (xs seen : List String),
      (dedupKeepFirst seen xs).Nodup ∧
      ∀ y ∈ dedupKeepFirst seen xs, y ∉ seen := by
  intro xs
  induction xs with
  | nil =>
    intro seen
    exact ⟨List.nodup_nil, by intro y hy; cases hy⟩
  | cons x rest ih =>
    intro seen
    by_cases hx : x ∈ seen
    · simp only [dedupKeepFirst, if_pos hx]
      exact ih seen
    · simp only [dedupKeepFirst, if_neg hx]
      obtain ⟨h1, h2⟩ := ih (x :: seen)
      refine ⟨List.nodup_cons.mpr ⟨?_, h1⟩, ?_⟩
      · intro hmem
        exact h2 x hmem (List.mem_cons_self x seen)
      · intro y hy
        rcases List.mem_cons.mp hy with rfl | hy'
        · exact hx
        · intro hseen
          exact h2 y hy' (List.mem_cons_of_mem x hseen)

theorem dedupByNameCI_pairwise :
    ∀ (xs : List StructuredIngredient) (seen : List String),
      List.Pairwise (fun a b => lowerName a ≠ lowerName b)
        (dedupByNameCI seen xs) ∧
      ∀ y ∈ dedupByNameCI seen xs, lowerName y ∉ seen := by
  intro xs
  induction xs with
  | nil =>
    intro seen
    exact ⟨List.Pairwise.nil, by intro y hy; cases hy⟩
  | cons x rest ih =>
    intro seen
    by_cases hx : lowerName x ∈ seen
    · simp only [dedupByNameCI, if_pos hx]
      exact ih seen
    · simp only [dedupByNameCI, if_neg hx]
      obtain ⟨h1, h2⟩ := ih (lowerName x :: seen)
      refine ⟨List.pairwise_cons.mpr ⟨?_, h1⟩, ?_⟩
      · intro b hb he
        exact h2 b hb (List.mem_cons.mpr (Or.inl he.symm))
      · intro y hy
        rcases List.mem_cons.mp hy with rfl | hy'
        · exact hx
        · intro hseen
          exact h2 y hy' (List.mem_cons_of_mem _ hseen)

theorem uniqueInstructions_nodup (xs : List String) :
    (uniqueInstructions xs).Nodup :=
  List.Nodup.sublist
    ((List.take_sublist _ _).trans (List.filter_sublist _))
    (dedupKeepFirst_nodup xs []).1

theorem uniqueIngredients_pairwise (xs : List StructuredIngredient) :
    List.Pairwise (fun a b => lowerName a ≠ lowerName b)
      (uniqueIngredients xs) :=
  List.Pairwise.sublist (List.take_sublist _ _)
    (dedupByNameCI_pairwise xs []).1

example : ingLineMatch "2 cups all-purpose flour".toList =
    some ("2".toList, "cups".toList, "all-purpose flour".toList) := by decide

example : (intelligentParse "Ingredients\n2 cups all-purpose flour").ingredients =
    [⟨"All-purpose flour", "2", "cups"⟩] := by decide

attribute [irreducible] scanL cleanHtmlList preWsStages trimJs

/-! ### The whitespace invariants of the full pipeline -/

theorem tail_props (x : List Char) :
    (∀ c ∈ trimJs (scanL mNlRun ['\n'] (scanL mNl3 ['\n', '\n']
        (scanL mHoriz [' '] x))), isTfvr c = false) ∧
    List.Chain' RSp (trimJs (scanL mNlRun ['\n'] (scanL mNl3 ['\n', '\n']
        (scanL mHoriz [' '] x)))) ∧
    List.Chain' RNl (trimJs (scanL mNlRun ['\n'] (scanL mNl3 ['\n', '\n']
        (scanL mHoriz [' '] x)))) ∧
    (∀ c, (trimJs (scanL mNlRun ['\n'] (scanL mNl3 ['\n', '\n']
        (scanL mHoriz [' '] x)))).head? = some c → isJsWs c = false) ∧
    (∀ c, (trimJs (scanL mNlRun ['\n'] (scanL mNl3 ['\n', '\n']
        (scanL mHoriz [' '] x)))).getLast? = some c → isJsWs c = false) := by
  set w1 := scanL mHoriz [' '] x with hw1
  set w2 := scanL mNl3 ['\n', '\n'] w1 with hw2
  set w3 := scanL mNlRun ['\n'] w2 with hw3
  have htfvr1 : ∀ c ∈ w1, isTfvr c = false := hc_no_tfvr x
  have hsp1 : List.Chain' RSp w1 := hc_chain_sp x
  have htfvr2 : ∀ c ∈ w2, isTfvr c = false := by
    intro c hc
    rcases mem_scanL w1 c hc with h | h
    · exact htfvr1 c h
    · simp at h
      rw [h]
      rfl
  have hsp2 : List.Chain' RSp w2 :=
    scanL_preserves_RSp (by simp) (by intro a ha; simp at ha; rw [ha]; decide)
      w1 hsp1
  have htfvr3 : ∀ c ∈ w3, isTfvr c = false := by
    intro c hc
    rcases mem_scanL w2 c hc with h | h
    · exact htfvr2 c h
    · simp at h
      rw [h]
      rfl
  have hsp3 : List.Chain' RSp w3 :=
    scanL_preserves_RSp (by simp) (by intro a ha; simp at ha; rw [ha]; decide)
      w2 hsp2
  have hnl3 : List.Chain' RNl w3 := nlc_chain_nl w2
  have hinf : trimJs w3 <:+: w3 := trimJs_infix w3
  refine ⟨?_, ?_, ?_, ?_, ?_⟩
  · intro c hc
    exact htfvr3 c (hinf.sublist.subset hc)
  · exact hsp3.infix hinf
  · exact hnl3.infix hinf
  · intro c hc
    exact trimJs_head_not_ws hc
  · intro c hc
    exact trimJs_getLast_not_ws hc

/-- Restating `cleanHtmlContent` through its `List Char` pipeline. -/
theorem cleanHtmlContent_eq (s : String) :
    cleanHtmlContent s = (cleanHtmlList s.toList).asString := by
  unfold cleanHtmlContent
  rfl

theorem cleanHtmlContent_toList (s : String) :
    (cleanHtmlContent s).toList = cleanHtmlList s.toList := by
  rw [cleanHtmlContent_eq]
  exact List.toList_asString _

theorem chainRNl_weaken {l : List Char} (h : List.Chain' RNl l) :
    List.Chain'
      (fun a b => ¬(a = '\n' ∧ b = '\n') ∧
        ¬((a = ' ' ∨ a = '\t') ∧ b = '\n') ∧
        ¬(a = '\n' ∧ (b = ' ' ∨ b = '\t'))) l := by
  refine h.imp ?_
  intro a b hab
  refine ⟨?_, ?_, ?_⟩
  · intro ⟨ha, hb⟩
    exact hab.1 ⟨by rw [ha]; exact isJsWs_nl, hb⟩
  · intro ⟨ha, hb⟩
    rcases ha with ha | ha
    · exact hab.1 ⟨by rw [ha]; decide, hb⟩
    · exact hab.1 ⟨by rw [ha]; decide, hb⟩
  · intro ⟨ha, hb⟩
    rcases hb with hb | hb
    · exact hab.2 ⟨ha, by rw [hb]; decide⟩
    · exact hab.2 ⟨ha, by rw [hb]; decide⟩

/-- C10: implicit whitespace invariant of the normalizer: for every
input string, the output of `cleanHtmlContent` has no leading or trailing
whitespace, contains no two consecutive newline characters, and contains
no space or tab immediately adjacent to a newline. -/
theorem claim_C10_whitespace_invariant (s : String) :
    (∀ c, (cleanHtmlContent s).toList.head? = some c → isJsWs c = false) ∧
    (∀ c, (cleanHtmlContent s).toList.getLast? = some c → isJsWs c = false) ∧
    List.Chain'
      (fun a b => ¬(a = '\n' ∧ b = '\n') ∧
        ¬((a = ' ' ∨ a = '\t') ∧ b = '\n') ∧
        ¬(a = '\n' ∧ (b = ' ' ∨ b = '\t')))
      (cleanHtmlContent s).toList := by
  rw [cleanHtmlContent_toList, cleanHtmlList_decompose]
  obtain ⟨_, _, hnl, hhd, hlast⟩ := tail_props (preWsStages s.toList)
  exact ⟨hhd, hlast, chainRNl_weaken hnl⟩

/-- Claim C3 (amended): `cleanHtmlContent` is idempotent on every input whose
normalized output contains no `<` and no `&` character (no residual tag or
entity material); the whitespace stages are always idempotent. -/
theorem claim_C3_amended_idempotent (s : String)
    (h1 : ¬ '<' ∈ (cleanHtmlContent s).toList)
    (h2 : ¬ '&' ∈ (cleanHtmlContent s).toList) :
    cleanHtmlContent (cleanHtmlContent s) = cleanHtmlContent s := by
  obtain ⟨htfvr, hsp, hnl, hhd, hlast⟩ := tail_props (preWsStages s.toList)
  rw [← cleanHtmlList_decompose s.toList] at htfvr hsp hnl hhd hlast
  rw [cleanHtmlContent_toList] at h1 h2
  have hfix : cleanHtmlList (cleanHtmlList s.toList) = cleanHtmlList s.toList := by
    rw [cleanHtmlList_decompose (cleanHtmlList s.toList)]
    rw [preWsStages_id h1 h2]
    rw [hc_id (cleanHtmlList s.toList) htfvr hsp]
    rw [nl3_id (cleanHtmlList s.toList) hnl]
    rw [nlc_id (cleanHtmlList s.toList) hnl]
    exact trimJs_id hhd hlast
  rw [cleanHtmlContent_eq (cleanHtmlContent s), cleanHtmlContent_eq s,
    List.toList_asString, hfix]

theorem claim_C3_amended_witness :
    cleanHtmlContent (cleanHtmlContent "a b") = cleanHtmlContent "a b" :=
  claim_C3_amended_idempotent "a b" c3_witness_no_lt c3_witness_no_amp

end Recipes
